import Mathlib

/-!
Shallow embedding of the `endgame-simulations` core:

* `endgame_simulations/simulations.py` — `GenericSimulation.iter_run` / `run`
* `endgame_simulations/endgame_simulation.py` — `find_next_params_index`,
  `GenericEndgame.__init__` / `reset_endgame` / `iter_run` / `run`
* `endgame_simulations/models.py` — `apply_incremental_param_changes`
* `endgame_models/get_differences.py` — `get_read_only_differences`

Python floats are modelled as exact rationals (`ℚ`); `while` loops are
modelled with an explicit fuel parameter (one unit of fuel per loop
iteration); Python exceptions are modelled with `Except String`.
-/

namespace EndgameSim

/-! ### Python rounding: `round(x, 9)` and the integer snap in `iter_run` -/

/-- Python `round` to the nearest integer: round half to even ("banker's
rounding"), as `round` behaves on Python floats. -/
def roundHalfEven (x : ℚ) : ℤ :=
  if Int.fract x < 1/2 then ⌊x⌋
  else if 1/2 < Int.fract x then ⌊x⌋ + 1
  else if Even ⌊x⌋ then ⌊x⌋ else ⌊x⌋ + 1

/-- Python `round(x, 9)`: round to 9 decimal places. -/
def pyRound9 (x : ℚ) : ℚ := (roundHalfEven (x * 10 ^ 9) : ℚ) / 10 ^ 9

/-- The "crude self-correction" in `GenericSimulation.iter_run`
(`simulations.py` lines 252–254):

```
if round(self.state.current_time, 9) % 1 == 0:
    self.state.current_time = round(self.state.current_time, 9)
```

`round(t, 9) % 1 == 0` holds exactly when `round(t, 9)` is an integer,
i.e. when the rational `pyRound9 t` has denominator 1. -/
def snapTime (t : ℚ) : ℚ := if (pyRound9 t).den = 1 then pyRound9 t else t

/-! ### The State contract (`common.py`, `BaseState`)

A state carries `current_time`, `_previous_delta_time` and
`_future_delta_time` (written `previous_delta_time` / `future_delta_time`
here), the currently installed parameter set (reachable through
`get_params` / swapped by `reset_params`), and opaque domain data `σ`
advanced by the externally supplied `advance_state` function. -/

structure MState (σ P : Type) where
  current_time : ℚ
  previous_delta_time : Option ℚ
  future_delta_time : Option ℚ
  params : P
  dom : σ
deriving DecidableEq

/-- The collaborators attached to a `GenericSimulation` subclass:
`advance_state` (the externally supplied step function, with the `debug`
flag already applied) and the subclass's `_delta_time` property, which is
re-read from the current state on every access (in the repository's
examples it returns `self.state.params.delta_time`). -/
structure SimCtx (σ P : Type) where
  advance_state : MState σ P → MState σ P
  delta_time : MState σ P → ℚ

/-- Result of draining `GenericSimulation.iter_run`: the yielded snapshots
in order, the final state, and the final `sampling_years_idx`. -/
structure IterOut (σ P : Type) where
  samples : List (MState σ P)
  final : MState σ P
  finalIdx : ℕ
deriving DecidableEq

/-- The state mutation both loops perform after updating `current_time`
(`simulations.py` lines 257–258 and 282–283): call
`advance_state(state, debug)` and then record
`_previous_delta_time = self._delta_time` (the property re-read on the
post-advance state). -/
def stepAdvance (ctx : SimCtx σ P) (s1 : MState σ P) : MState σ P :=
  let s2 := ctx.advance_state s1
  { s2 with previous_delta_time := some (ctx.delta_time s2) }

/-- The `while` loop of `GenericSimulation.iter_run`
(`simulations.py` lines 240–258), with fuel.  One iteration:
if `current_time + _delta_time <= real_end_time`:
yield the pre-advance state when on a sampling year (advancing
`sampling_years_idx` by one), add `_delta_time` to `current_time`, apply
the integer snap, then `stepAdvance`. -/
def iterLoop (ctx : SimCtx σ P) (real_end : ℚ) (ys : Option (List ℚ)) :
    ℕ → ℕ → MState σ P → IterOut σ P
  | 0, idx, s => ⟨[], s, idx⟩
  | fuel + 1, idx, s =>
    let d := ctx.delta_time s
    if s.current_time + d ≤ real_end then
      let onSample :=
        match ys with
        | none => false
        | some l =>
          decide (idx < l.length) && decide (0 ≤ s.current_time - l.getD idx 0)
      let idx' := if onSample then idx + 1 else idx
      let out := iterLoop ctx real_end ys fuel idx'
        (stepAdvance ctx { s with current_time := snapTime (s.current_time + d) })
      ⟨if onSample then s :: out.samples else out.samples, out.final, out.finalIdx⟩
    else ⟨[], s, idx⟩

/-- The `while` loop of `GenericSimulation.run`
(`simulations.py` lines 279–283), with fuel.  Identical to the
`iter_run` loop except that there is no sampling and — notably — no
integer snap of `current_time`. -/
def runLoop (ctx : SimCtx σ P) (end_time : ℚ) : ℕ → MState σ P → MState σ P
  | 0, s => s
  | fuel + 1, s =>
    let d := ctx.delta_time s
    if s.current_time + d ≤ end_time then
      runLoop ctx end_time fuel
        (stepAdvance ctx { s with current_time := s.current_time + d })
    else s

/-! ### The `iter_run` / `run` entry points (argument checks) -/

/-- Python truthiness of the optional `sampling_interval` float
(`0.0` and `None` are falsy). -/
def optFloatTruthy : Option ℚ → Bool
  | none => false
  | some x => decide (x ≠ 0)

/-- Python truthiness of the optional `sampling_years` list
(`None` and the empty list are falsy). -/
def optListTruthy : Option (List ℚ) → Bool
  | none => false
  | some l => !l.isEmpty

/-- Insert into a sorted list (ascending). -/
def sortedInsert (x : ℚ) : List ℚ → List ℚ
  | [] => [x]
  | y :: ys => if x ≤ y then x :: y :: ys else y :: sortedInsert x ys

/-- Python `sorted` on a list of floats (ascending insertion sort). -/
def pySorted (l : List ℚ) : List ℚ := l.foldr sortedInsert []

/-- `numpy.arange(start, stop, step)`: the values
`start, start + step, …` strictly before `stop`; `step = 0` raises
`ZeroDivisionError`. -/
def npArange (start stop step : ℚ) : Except String (List ℚ) :=
  if step = 0 then .error "ZeroDivisionError: division by zero"
  else
    .ok ((List.range (⌈(stop - start) / step⌉.toNat)).map fun k => start + k * step)

/-- `GenericSimulation.iter_run` (`simulations.py` lines 206–258).
`real_end_time` is `end_time` plus one step size when `inclusive`;
an end time before `current_time` raises `ValueError`; supplying truthy
`sampling_interval` *and* truthy `sampling_years` raises `ValueError`;
a truthy `sampling_years` list is sorted; a non-`None` `sampling_interval`
replaces `sampling_years` with `np.arange(current_time, real_end_time,
sampling_interval)`; then the sampling loop runs. -/
def iter_run (ctx : SimCtx σ P) (end_time : ℚ) (sampling_interval : Option ℚ)
    (sampling_years : Option (List ℚ)) (inclusive : Bool) (fuel : ℕ)
    (s : MState σ P) : Except String (IterOut σ P) :=
  let real_end := if inclusive then end_time + ctx.delta_time s else end_time
  if real_end < s.current_time then
    .error "End time before start"
  else if optFloatTruthy sampling_interval && optListTruthy sampling_years then
    .error "You must provide sampling_interval, sampling_years or neither"
  else
    let ys0 :=
      if optListTruthy sampling_years then sampling_years.map pySorted
      else sampling_years
    match sampling_interval with
    | some iv =>
      match npArange s.current_time real_end iv with
      | .error e => .error e
      | .ok l => .ok (iterLoop ctx real_end (some l) fuel 0 s)
    | none => .ok (iterLoop ctx real_end ys0 fuel 0 s)

/-- `GenericSimulation.run` (`simulations.py` lines 260–283): an end time
before `current_time` raises `ValueError`, then the plain advancing loop
runs (without the integer snap). -/
def run (ctx : SimCtx σ P) (end_time : ℚ) (fuel : ℕ) (s : MState σ P) :
    Except String (MState σ P) :=
  if end_time < s.current_time then
    .error "End time before start"
  else
    .ok (runLoop ctx end_time fuel s)

/-- Whether an `Except` result is an error (a raised Python exception). -/
def isErr : Except String α → Bool
  | .error _ => true
  | .ok _ => false

/-! ### The Endgame controller (`endgame_simulation.py`) -/

/-- `next(i for i, (time, _) in enumerate(param_set) if time > current_time)`:
the index of the first schedule entry whose time is strictly greater than
`current_time`, or `none` (`StopIteration`) when there is no such entry. -/
def firstIdxAfter (current_time : ℚ) : List (ℚ × P) → Option ℕ
  | [] => none
  | pr :: rest =>
    if current_time < pr.1 then some 0 else (firstIdxAfter current_time rest).map (· + 1)

/-- `find_next_params_index` (`endgame_simulation.py` lines 18–42): the
index of the first schedule entry whose time is strictly greater than
`current_time`; `len(param_set)` when there is none (`StopIteration`);
`ValueError` when that index is `0` (i.e. `< 1`). -/
def find_next_params_index (param_set : List (ℚ × P)) (current_time : ℚ) :
    Except String ℕ :=
  match firstIdxAfter current_time param_set with
  | none => .ok param_set.length
  | some i => if i < 1 then .error "Invalid next param index" else .ok i

/-- The state of a `GenericEndgame`: the inner simulation's state, the
converted `_param_set` schedule, and `next_params_index`. -/
structure EG (σ P : Type) where
  sim : MState σ P
  param_set : List (ℚ × P)
  next_params_index : ℕ
deriving DecidableEq

/-- The collaborators attached to a `GenericEndgame` subclass, on top of
the inner simulation's: `from_params` models `state_class.from_params`
(per the `BaseState` contract it builds a fresh state holding the given
parameters at the given time, with no previous/future step size recorded
and domain data initialised from the parameters), and `fields_of` lists
the pydantic field names of a combined-parameters model, in declaration
order, as `model.__iter__` would yield them. -/
structure EGCtx (σ P : Type) extends SimCtx σ P where
  dom_init : P → σ
  fields_of : P → List String

/-- `state_class.from_params(params, start_time)` under the `BaseState`
contract (`common.py`): a fresh state at `start_time` holding `params`. -/
def EGCtx.from_params (ctx : EGCtx σ P) (p : P) (start_time : ℚ) : MState σ P :=
  ⟨start_time, none, none, p, ctx.dom_init p⟩

/-- Python equality between a `str` and the items yielded by iterating a
pydantic `BaseModel`.  `BaseModel` defines no `__contains__`, so
`"state" in next_params` falls back to `__iter__`, which yields
`(field_name, value)` tuples; in Python a `str` never compares equal to a
`tuple`, so every comparison is `False`, whatever the field name. -/
def pyStrEqFieldItem (_key : String) (_field_name : String) : Bool := false

/-- `"state" in next_params` for a pydantic model `next_params`
(`endgame_simulation.py` lines 306 and 337): membership via `__iter__`,
comparing the string against each yielded `(field_name, value)` tuple. -/
def pydanticModelContains (key : String) (field_names : List String) : Bool :=
  field_names.any fun name => pyStrEqFieldItem key name

/-- Lines 306–310 (and 337–341) of `endgame_simulation.py`:

```
if (next_params is not None) and ("state" in next_params) and ("delta_time" in next_params.state):
    if (next_params.state.delta_time != self.simulation.delta_time):
        self.simulation.state._future_delta_time = next_params.state.delta_time
else:
    self.simulation.state._future_delta_time = None
```

This computes the new `_future_delta_time` when `next_params` is not
`None`.  Both `in` tests use pydantic-model membership, which never
succeeds (see `pydanticModelContains`), so the outer condition is always
false and the `else` branch clears the field; if the guard could ever
succeed, the comparison would moreover raise `AttributeError`, because
`GenericSimulation` and its subclasses in this repository define
`_delta_time` but no `delta_time` attribute. -/
def prepFutureDelta (field_names : List String) (cur : Option ℚ) : Option ℚ :=
  if pydanticModelContains "state" field_names then cur else none

/-- `GenericEndgame.__init__` (`endgame_simulation.py` lines 134–187).
The `assert (endgame is not None) != (input is not None)` check; on the
`endgame` branch, `convert_endgame` produces `_param_set`, the
`assert start_time is not None and (len(self._param_set) > 0)` check,
`find_next_params_index`, and the inner simulation is constructed from
`_param_set[next_params_index - 1][1]` at `start_time`.  On the `input`
branch the persisted state, schedule and index are restored verbatim
(HDF5 decoding is abstracted as an already-decoded `EG` value). -/
def endgameInit (ctx : EGCtx σ P) (convert : E → List (ℚ × P))
    (endgame : Option E) (input : Option (EG σ P)) (start_time : ℚ) :
    Except String (EG σ P) :=
  if endgame.isSome = input.isSome then
    .error "AssertionError: You must provide either endgame or input"
  else
    match endgame, input with
    | some e, _ =>
      let ps := convert e
      if ps.length = 0 then .error "AssertionError"
      else
        match find_next_params_index ps start_time with
        | .error msg => .error msg
        | .ok idx =>
          match ps.get? (idx - 1) with
          | none => .error "IndexError"
          | some pr => .ok ⟨ctx.from_params pr.2 start_time, ps, idx⟩
    | none, some g => .ok g
    | none, none => .error "AssertionError: You must provide either endgame or input"

/-- `GenericEndgame.reset_endgame` (`endgame_simulation.py` lines
189–197): recompute `_param_set`, `assert len(self._param_set) > 0`,
recompute `next_params_index` from the *current* simulated time, and
install `_param_set[next_params_index - 1][1]` via
`reset_current_params`. -/
def reset_endgame (convert : E → List (ℚ × P))
    (g : EG σ P) (endgame : E) : Except String (EG σ P) :=
  let ps := convert endgame
  if ps.length = 0 then .error "AssertionError"
  else
    match find_next_params_index ps g.sim.current_time with
    | .error msg => .error msg
    | .ok idx =>
      match ps.get? (idx - 1) with
      | none => .error "IndexError"
      | some pr =>
        .ok ⟨{ g.sim with params := pr.2 }, ps, idx⟩

/-- The outer `while` loop of `GenericEndgame.run`
(`endgame_simulation.py` lines 322–347), with fuel.  While
`current_time < end_time`: pick the pending schedule entry (if
`next_params_index < len(_param_set)`) and run the inner simulation to
`next_stop = min(entry time, end_time)` (else to `end_time`); the
`_future_delta_time` preparation always clears the field (see
`prepFutureDelta`); after the segment, a pending entry's parameters are
installed via `reset_current_params` and `next_params_index` is
incremented. -/
def egRunLoop (ctx : EGCtx σ P) (end_time : ℚ) (innerFuel : ℕ) :
    ℕ → EG σ P → Except String (EG σ P)
  | 0, g => .ok g
  | fuel + 1, g =>
    if g.sim.current_time < end_time then
      match (if g.next_params_index < g.param_set.length then
               g.param_set.get? g.next_params_index else none) with
      | some (time, next_params) =>
        let next_stop := min time end_time
        let s1 := { g.sim with
          future_delta_time :=
            prepFutureDelta (ctx.fields_of next_params) g.sim.future_delta_time }
        match run ctx.toSimCtx next_stop innerFuel s1 with
        | .error msg => .error msg
        | .ok s2 =>
          egRunLoop ctx end_time innerFuel fuel
            ⟨{ s2 with params := next_params }, g.param_set, g.next_params_index + 1⟩
      | none =>
        let s1 := { g.sim with future_delta_time := none }
        match run ctx.toSimCtx end_time innerFuel s1 with
        | .error msg => .error msg
        | .ok s2 => egRunLoop ctx end_time innerFuel fuel ⟨s2, g.param_set, g.next_params_index⟩
    else .ok g

/-- The outer `while` loop of `GenericEndgame.iter_run`
(`endgame_simulation.py` lines 289–320), with fuel.  As `egRunLoop`, but
`inclusive` extends the stop positions by the inner simulation's current
step size, the inner `iter_run` is drained with the caller's sampling
arguments (and `inclusive` *not* passed on), and the yielded samples are
re-yielded in order. -/
def egIterLoop (ctx : EGCtx σ P) (end_time : ℚ) (sampling_interval : Option ℚ)
    (sampling_years : Option (List ℚ)) (inclusive : Bool) (innerFuel : ℕ) :
    ℕ → EG σ P → Except String (List (MState σ P) × EG σ P)
  | 0, g => .ok ([], g)
  | fuel + 1, g =>
    if g.sim.current_time < end_time then
      let inclusive_adjustment := if inclusive then ctx.delta_time g.sim else 0
      match (if g.next_params_index < g.param_set.length then
               g.param_set.get? g.next_params_index else none) with
      | some (time, next_params) =>
        let next_stop := min time (end_time + inclusive_adjustment)
        let s1 := { g.sim with
          future_delta_time :=
            prepFutureDelta (ctx.fields_of next_params) g.sim.future_delta_time }
        match iter_run ctx.toSimCtx next_stop sampling_interval sampling_years false
            innerFuel s1 with
        | .error msg => .error msg
        | .ok out =>
          match egIterLoop ctx end_time sampling_interval sampling_years inclusive
              innerFuel fuel
              ⟨{ out.final with params := next_params }, g.param_set,
                g.next_params_index + 1⟩ with
          | .error msg => .error msg
          | .ok (rest, gf) => .ok (out.samples ++ rest, gf)
      | none =>
        let next_stop := end_time + inclusive_adjustment
        let s1 := { g.sim with future_delta_time := none }
        match iter_run ctx.toSimCtx next_stop sampling_interval sampling_years false
            innerFuel s1 with
        | .error msg => .error msg
        | .ok out =>
          match egIterLoop ctx end_time sampling_interval sampling_years inclusive
              innerFuel fuel ⟨out.final, g.param_set, g.next_params_index⟩ with
          | .error msg => .error msg
          | .ok (rest, gf) => .ok (out.samples ++ rest, gf)
    else .ok ([], g)

/-- The schedule entry that *should* be active at time `t`: the parameters
of the entry with the greatest `activation_time ≤ t` (for a schedule
sorted by strictly increasing activation time, the last entry whose time
is `≤ t`). -/
def activeParams (ps : List (ℚ × P)) (t : ℚ) : Option P :=
  ((ps.filter fun pr => decide (pr.1 ≤ t)).getLast?).map Prod.snd

/-! ### `apply_incremental_param_changes` (`models.py` lines 168–191) -/

/-- `ParameterChange` (`models.py` lines 110–118): a `(year, month)` time
tag plus an update-parameters model.  The update model's
`dict(exclude_unset=True)` — the sparse map containing exactly the
explicitly set fields — is modelled directly as a partial field map. -/
structure ParameterChange (V : Type) where
  year : ℤ
  month : ℤ
  params : String → Option V

/-- `current_dict.update(d)` for Python dicts at a fixed key set:
pointwise override of the full field map by the sparse map.
`dict.update` is shallow — a present key replaces the whole stored
value. -/
def dictUpdate (current : String → V) (u : String → Option V) : String → V :=
  fun k => (u k).getD (current k)

/-- `apply_incremental_param_changes` (`models.py` lines 168–191) on an
iterable of changes: start from `initial.dict()` (the full field map),
run `current_dict.update(change.params.dict(exclude_unset=True))` for
each change in the order given, and re-validate with
`type(initial).parse_obj`.  The update model's fields are a subset of
the initial model's (`create_update_model`), so the merged map has
exactly the initial model's key set and re-validation rebuilds the same
field map (modelled as the identity). -/
def apply_incremental_param_changes (initial : String → V)
    (changes : List (ParameterChange V)) : String → V :=
  changes.foldl (fun cur ch => dictUpdate cur ch.params) initial

/-! ### Trajectory predicates used as hypotheses of amended claims -/

/-- The integer snap leaves every `current_time` reached by the
`iter_run` loop unchanged (computed along the same trajectory as
`iterLoop` with no sampling years). -/
def snapFreeB (ctx : SimCtx σ P) (real_end : ℚ) : ℕ → MState σ P → Bool
  | 0, _ => true
  | fuel + 1, s =>
    let d := ctx.delta_time s
    if s.current_time + d ≤ real_end then
      decide (snapTime (s.current_time + d) = s.current_time + d) &&
        snapFreeB ctx real_end fuel
          (stepAdvance ctx { s with current_time := snapTime (s.current_time + d) })
    else true

/-- Along the trajectory of `egRunLoop`, every inner `run` segment ends
exactly at its `next_stop` whenever a pending schedule entry exists
(i.e. the schedule's activation times are hit exactly by the step
sequence). -/
def egRunHitsB (ctx : EGCtx σ P) (end_time : ℚ) (innerFuel : ℕ) :
    ℕ → EG σ P → Bool
  | 0, _ => true
  | fuel + 1, g =>
    if g.sim.current_time < end_time then
      match (if g.next_params_index < g.param_set.length then
               g.param_set.get? g.next_params_index else none) with
      | some (time, next_params) =>
        let next_stop := min time end_time
        let s1 := { g.sim with
          future_delta_time :=
            prepFutureDelta (ctx.fields_of next_params) g.sim.future_delta_time }
        match run ctx.toSimCtx next_stop innerFuel s1 with
        | .error _ => true
        | .ok s2 =>
          decide (s2.current_time = next_stop) &&
            egRunHitsB ctx end_time innerFuel fuel
              ⟨{ s2 with params := next_params }, g.param_set, g.next_params_index + 1⟩
      | none =>
        let s1 := { g.sim with future_delta_time := none }
        match run ctx.toSimCtx end_time innerFuel s1 with
        | .error _ => true
        | .ok s2 =>
          egRunHitsB ctx end_time innerFuel fuel ⟨s2, g.param_set, g.next_params_index⟩
    else true

/-- Along the trajectory of `egIterLoop`, every inner `iter_run` segment
ends exactly at its `next_stop` whenever a pending schedule entry
exists. -/
def egIterHitsB (ctx : EGCtx σ P) (end_time : ℚ) (sampling_interval : Option ℚ)
    (sampling_years : Option (List ℚ)) (inclusive : Bool) (innerFuel : ℕ) :
    ℕ → EG σ P → Bool
  | 0, _ => true
  | fuel + 1, g =>
    if g.sim.current_time < end_time then
      let inclusive_adjustment := if inclusive then ctx.delta_time g.sim else 0
      match (if g.next_params_index < g.param_set.length then
               g.param_set.get? g.next_params_index else none) with
      | some (time, next_params) =>
        let next_stop := min time (end_time + inclusive_adjustment)
        let s1 := { g.sim with
          future_delta_time :=
            prepFutureDelta (ctx.fields_of next_params) g.sim.future_delta_time }
        match iter_run ctx.toSimCtx next_stop sampling_interval sampling_years false
            innerFuel s1 with
        | .error _ => true
        | .ok out =>
          decide (out.final.current_time = next_stop) &&
            egIterHitsB ctx end_time sampling_interval sampling_years inclusive
              innerFuel fuel
              ⟨{ out.final with params := next_params }, g.param_set,
                g.next_params_index + 1⟩
      | none =>
        let next_stop := end_time + inclusive_adjustment
        let s1 := { g.sim with future_delta_time := none }
        match iter_run ctx.toSimCtx next_stop sampling_interval sampling_years false
            innerFuel s1 with
        | .error _ => true
        | .ok out =>
          egIterHitsB ctx end_time sampling_interval sampling_years inclusive
            innerFuel fuel ⟨out.final, g.param_set, g.next_params_index⟩
    else true

/-- The endgame invariant checked at the top of an outer loop iteration
(the `# Invariant: current params are applied at this point` comment,
`endgame_simulation.py` lines 298 and 329): the inner simulation's
installed parameters equal the schedule entry with the greatest
activation time `≤` the inner simulation's `current_time`. -/
def egInstalledActiveB [DecidableEq P] (g : EG σ P) : Bool :=
  decide (activeParams g.param_set g.sim.current_time = some g.sim.params)

/-- Replay of the outer `while` loop of `GenericEndgame.run`, checking
`egInstalledActiveB` at the top of every executed outer iteration. -/
def egRunInvB [DecidableEq P] (ctx : EGCtx σ P) (end_time : ℚ) (innerFuel : ℕ) :
    ℕ → EG σ P → Bool
  | 0, _ => true
  | fuel + 1, g =>
    if g.sim.current_time < end_time then
      egInstalledActiveB g &&
      (match (if g.next_params_index < g.param_set.length then
               g.param_set.get? g.next_params_index else none) with
       | some (time, next_params) =>
         let next_stop := min time end_time
         let s1 := { g.sim with
           future_delta_time :=
             prepFutureDelta (ctx.fields_of next_params) g.sim.future_delta_time }
         match run ctx.toSimCtx next_stop innerFuel s1 with
         | .error _ => true
         | .ok s2 =>
           egRunInvB ctx end_time innerFuel fuel
             ⟨{ s2 with params := next_params }, g.param_set, g.next_params_index + 1⟩
       | none =>
         let s1 := { g.sim with future_delta_time := none }
         match run ctx.toSimCtx end_time innerFuel s1 with
         | .error _ => true
         | .ok s2 =>
           egRunInvB ctx end_time innerFuel fuel ⟨s2, g.param_set, g.next_params_index⟩)
    else true

/-- Replay of the outer `while` loop of `GenericEndgame.iter_run`,
checking `egInstalledActiveB` at the top of every executed outer
iteration and, for every sample yielded by the inner drain, that the
installed parameters at that sample equal the schedule entry with the
greatest activation time `≤` the sample's `current_time`. -/
def egIterInvB [DecidableEq P] (ctx : EGCtx σ P) (end_time : ℚ)
    (sampling_interval : Option ℚ) (sampling_years : Option (List ℚ))
    (inclusive : Bool) (innerFuel : ℕ) : ℕ → EG σ P → Bool
  | 0, _ => true
  | fuel + 1, g =>
    if g.sim.current_time < end_time then
      egInstalledActiveB g &&
      (let inclusive_adjustment := if inclusive then ctx.delta_time g.sim else 0
       match (if g.next_params_index < g.param_set.length then
               g.param_set.get? g.next_params_index else none) with
       | some (time, next_params) =>
         let next_stop := min time (end_time + inclusive_adjustment)
         let s1 := { g.sim with
           future_delta_time :=
             prepFutureDelta (ctx.fields_of next_params) g.sim.future_delta_time }
         match iter_run ctx.toSimCtx next_stop sampling_interval sampling_years false
             innerFuel s1 with
         | .error _ => true
         | .ok out =>
           out.samples.all (fun x =>
             decide (activeParams g.param_set x.current_time = some x.params)) &&
           egIterInvB ctx end_time sampling_interval sampling_years inclusive
             innerFuel fuel
             ⟨{ out.final with params := next_params }, g.param_set,
               g.next_params_index + 1⟩
       | none =>
         let next_stop := end_time + inclusive_adjustment
         let s1 := { g.sim with future_delta_time := none }
         match iter_run ctx.toSimCtx next_stop sampling_interval sampling_years false
             innerFuel s1 with
         | .error _ => true
         | .ok out =>
           out.samples.all (fun x =>
             decide (activeParams g.param_set x.current_time = some x.params)) &&
           egIterInvB ctx end_time sampling_interval sampling_years inclusive
             innerFuel fuel ⟨out.final, g.param_set, g.next_params_index⟩)
    else true

/-! ### `get_read_only_differences` (`endgame_models/get_differences.py`) -/

/-- A Python value as produced by `BaseModel.dict()`: `None`, a flat leaf
value, or a nested sub-model dict.  Flat leaf values are abstracted as
integers. -/
inductive PVal : Type where
  | pynone : PVal
  | int (n : ℤ) : PVal
  | obj (d : List (String × PVal)) : PVal

mutual
/-- Python `==` on dict-form values (structural equality). -/
def PVal.beq : PVal → PVal → Bool
  | .pynone, .pynone => true
  | .int m, .int n => m == n
  | .obj d, .obj e => pdictBeq d e
  | _, _ => false
termination_by a _ => sizeOf a

/-- Python `==` on dicts (equal keys and values, in order; the dicts
compared here come from `.dict()` on models of one schema, so field
order is the declaration order on both sides). -/
def pdictBeq : List (String × PVal) → List (String × PVal) → Bool
  | [], [] => true
  | (k, v) :: r, (k', v') :: r' => k == k' && PVal.beq v v' && pdictBeq r r'
  | _, _ => false
termination_by l _ => sizeOf l
end

/-- `str(value)` as interpolated into the produced messages.  Integers
render as in Python; a composite value's rendering is abstracted. -/
def PVal.pyStr : PVal → String
  | .pynone => "None"
  | .int n => toString n
  | .obj _ => "<dict>"

mutual
/-- A pydantic model class: `__name__` and `__fields__` in declaration
order. -/
inductive PModel : Type where
  | mk (name : String) (fields : PFields) : PModel

/-- The declared fields of a model: each has a name, its
`field_info.allow_mutation` flag (`False` for `read_only` fields), and is
either a flat field or a sub-model field
(`issubclass(field.outer_type_, BaseInitialParams)`). -/
inductive PFields : Type where
  | nil : PFields
  | flat (fname : String) (allow_mutation : Bool) (rest : PFields) : PFields
  | sub (fname : String) (allow_mutation : Bool) (m : PModel) (rest : PFields) : PFields
end

def PModel.name : PModel → String
  | .mk n _ => n

def PModel.fields : PModel → PFields
  | .mk _ f => f

/-- `model.__fields__[k]`: the `allow_mutation` flag and the sub-model
schema (for sub-model fields). -/
def PFields.lookup : PFields → String → Option (Bool × Option PModel)
  | .nil, _ => none
  | .flat fname am rest, k => if k = fname then some (am, none) else rest.lookup k
  | .sub fname am m rest, k => if k = fname then some (am, some m) else rest.lookup k

/-- `initial_dict.get(k)` for the dict form of a model. -/
def dlookup (k : String) : List (String × PVal) → Option PVal
  | [] => none
  | (k', v) :: rest => if k = k' then some v else dlookup k rest

mutual
/-- `OutputReadOnly = dict[str, ReadOnlyDiff | OutputReadOnly]`. -/
inductive OutMap : Type where
  | nil : OutMap
  | cons (k : String) (e : OutEntry) (rest : OutMap) : OutMap

/-- Either a `ReadOnlyDiff(original, new)` leaf or a nested output map. -/
inductive OutEntry : Type where
  | rodiff (original new : PVal) : OutEntry
  | nested (sub : OutMap) : OutEntry
end

def OutMap.isNil : OutMap → Bool
  | .nil => true
  | .cons .. => false

/-- The `for k, new_v in update_dict.items()` loop of
`_output_read_only_diff` (`get_differences.py` lines 29–41): for each
update item whose key is present in `initial_dict` with a non-`None`
value, the field must exist in the model (`assert`); a mutable field is
skipped; a read-only sub-model field recurses (both values must be dicts,
`assert`), keeping the result only when non-empty; a read-only flat field
contributes a `ReadOnlyDiff` when the values differ.  `fuel` bounds the
sub-model recursion depth. -/
def diffGo (fuel : ℕ) (upd initial_dict : List (String × PVal)) (fl : PFields) :
    Except String OutMap :=
  match upd with
  | [] => .ok .nil
  | (k, new_v) :: rest => do
    let restMap ← diffGo fuel rest initial_dict fl
    match dlookup k initial_dict with
    | none => .ok restMap
    | some old_v =>
      if old_v.beq PVal.pynone then .ok restMap
      else
        match fl.lookup k with
        | none => .error "AssertionError"
        | some (allow_mutation, subm) =>
          if allow_mutation then .ok restMap
          else
            match subm with
            | some sm =>
              match old_v, new_v with
              | .obj od, .obj nd =>
                match fuel with
                | 0 => .error "recursion depth exceeded"
                | fuel' + 1 => do
                  let out ← diffGo fuel' nd od sm.fields
                  if out.isNil then .ok restMap
                  else .ok (.cons k (.nested out) restMap)
              | _, _ => .error "AssertionError"
            | none =>
              if old_v.beq new_v then .ok restMap
              else .ok (.cons k (.rodiff old_v new_v) restMap)
termination_by (fuel, upd.length)

/-- `_output_read_only_diff(initial_dict, update_dict, model)`
(`get_differences.py` lines 25–46): the iteration above, returning `None`
when no read-only change was collected. -/
def output_read_only_diff (fuel : ℕ) (initial_dict update_dict : List (String × PVal))
    (m : PModel) : Except String (Option OutMap) := do
  let r ← diffGo fuel update_dict initial_dict m.fields
  .ok (if r.isNil then none else some r)

mutual
/-- `inner_flatten` of `_flatten_output_read_only` (`get_differences.py`
lines 56–66): flatten the nested output into `(key, original, new)`
triples, extending the path prefix with ` -> k` at each nesting level and
attaching the `Read only value was changed:` banner at each leaf. -/
def innerFlattenMap (pfx : String) : OutMap → List (String × PVal × PVal)
  | .nil => []
  | .cons k e rest => innerFlattenEntry pfx k e ++ innerFlattenMap pfx rest

def innerFlattenEntry (pfx : String) (k : String) : OutEntry → List (String × PVal × PVal)
  | .rodiff o n => [("Read only value was changed: \n" ++ pfx ++ " -> " ++ k, o, n)]
  | .nested sub => innerFlattenMap (pfx ++ " -> " ++ k) sub
end

/-- `_flatten_output_read_only` (`get_differences.py` lines 49–74):
`[]` for `None`, else one formatted message per flattened
`ReadOnlyDiff`. -/
def flattenOutput (o : Option OutMap) (pfx : String) : List String :=
  match o with
  | none => []
  | some om =>
    (innerFlattenMap pfx om).map fun e =>
      e.1 ++ "   Old value: " ++ e.2.1.pyStr ++ " New value: " ++ e.2.2.pyStr

/-- `get_read_only_differences(old_params, new_params)`
(`get_differences.py` lines 80–99): diff the two models' dict forms
against the schema (`model = type(old_params)`), then flatten with the
model name as path prefix. -/
def get_read_only_differences (fuel : ℕ) (m : PModel)
    (old_params new_params : List (String × PVal)) : Except String (List String) := do
  let d ← output_read_only_diff fuel old_params new_params m
  .ok (flattenOutput d m.name)

/-- The keys of a dict. -/
def keysOf (d : List (String × PVal)) : List String := d.map Prod.fst

/-- The dict form of a model instance conforms to the schema: keys are
distinct and declared, sub-model fields hold dicts conforming to the
sub-schema (or `None`), flat fields hold non-dict values.  `fuel` bounds
the recursion depth, in step with `diffGo`. -/
def fieldShapeOK (check : List (String × PVal) → PModel → Bool) (fl : PFields)
    (kv : String × PVal) : Bool :=
  match fl.lookup kv.1 with
  | none => false
  | some (_, some sm) =>
    match kv.2 with
    | .obj sd => check sd sm
    | .pynone => true
    | .int _ => false
  | some (_, none) =>
    match kv.2 with
    | .obj _ => false
    | _ => true

def dictConformsB : ℕ → List (String × PVal) → PFields → Bool
  | 0, d, fl =>
    decide (keysOf d).Nodup && d.all (fieldShapeOK (fun _ _ => false) fl)
  | fuel + 1, d, fl =>
    decide (keysOf d).Nodup &&
      d.all (fieldShapeOK (fun sd sm => dictConformsB fuel sd sm.fields) fl)

/-- `DiffersOnlyAt m old new path ov nv`: the two dict forms differ
exactly at the (read-only) leaf field reached by `path`, whose old value
is `ov` and new value `nv`; every field off the path is equal in the two
dicts, and every prefix of the path is a read-only sub-model field
present as a dict on both sides. -/
def DiffersOnlyAt (m : PModel) : List (String × PVal) → List (String × PVal) →
    List String → PVal → PVal → Prop
  | old, new, [k], ov, nv =>
    m.fields.lookup k = some (false, none) ∧
    dlookup k old = some ov ∧ dlookup k new = some nv ∧
    ov ≠ nv ∧ ov ≠ PVal.pynone ∧
    (∀ k', k' ≠ k → dlookup k' old = dlookup k' new)
  | old, new, k :: k2 :: path, ov, nv =>
    ∃ sm od nd,
      m.fields.lookup k = some (false, some sm) ∧
      dlookup k old = some (.obj od) ∧ dlookup k new = some (.obj nd) ∧
      (∀ k', k' ≠ k → dlookup k' old = dlookup k' new) ∧
      DiffersOnlyAt sm od nd (k2 :: path) ov nv
  | _, _, [], _, _ => False

/-- The dotted path rendered as the flattener renders it. -/
def pathKey (pfx : String) : List String → String
  | [] => pfx
  | k :: rest => pathKey (pfx ++ " -> " ++ k) rest

/-- The exact message `get_read_only_differences` produces for a single
read-only difference at `path`. -/
def roMessage (m : PModel) (path : List String) (ov nv : PVal) : String :=
  "Read only value was changed: \n" ++ pathKey m.name path ++
    "   Old value: " ++ ov.pyStr ++ " New value: " ++ nv.pyStr

/-- The singleton nested output map collected for a single read-only
difference along a path. -/
def chainOut : List String → PVal → PVal → OutMap
  | [], _, _ => .nil
  | [k], ov, nv => .cons k (.rodiff ov nv) .nil
  | k :: k2 :: p, ov, nv => .cons k (.nested (chainOut (k2 :: p) ov nv)) .nil

/-! ### Concrete instantiations used by counterexamples and witnesses -/

/-- A trivial simulation context: unit domain and parameters, identity
advance function, constant step size `1`. -/
def unitSimCtx : SimCtx Unit Unit := ⟨fun s => s, fun _ => 1⟩

/-- A fresh unit state at time `0`. -/
def unitState0 : MState Unit Unit := ⟨0, none, none, (), ()⟩

/-- Step size `0.9999999996`: one step from `0` lands within `5·10⁻¹⁰` of
the integer `1`, so `round(current_time, 9) % 1 == 0` and the snap
fires. -/
def dtDrift : ℚ := 2499999999/2500000000

/-- Simulation context stepping by `dtDrift` (the subclass `_delta_time`
property returns a constant here). -/
def driftCtx : SimCtx Unit Unit := ⟨fun s => s, fun _ => dtDrift⟩

/-- An endgame context over a unit domain with ℕ-coded parameter sets and
constant step size `1`. -/
def egCtxN : EGCtx Unit ℕ :=
  { advance_state := fun s => s, delta_time := fun _ => 1,
    dom_init := fun _ => (), fields_of := fun _ => ["w_rate", "delta_time"] }

/-- Initial full field map for the change-application witness. -/
def c3init : String → ℕ := fun _ => 0

/-- A change explicitly setting field `a` to `5`. -/
def c3ch1 : ParameterChange ℕ := ⟨2020, 1, fun k => if k = "a" then some 5 else none⟩

/-- A later change explicitly setting field `a` to `7`. -/
def c3ch2 : ParameterChange ℕ := ⟨2022, 1, fun k => if k = "a" then some 7 else none⟩

/-- A schema with a single read-only flat field `a`. -/
def c4ModelFlat : PModel := .mk "Params" (.flat "a" false .nil)

/-- A schema with a read-only sub-model field `inner` (holding a
read-only flat field `b`) and a mutable flat field `c`. -/
def c4ModelNested : PModel :=
  .mk "Outer" (.sub "inner" false (.mk "Inner" (.flat "b" false .nil)) (.flat "c" true .nil))

end EndgameSim

namespace EndgameSim

/-! ## Theorems

General lemmas first, then one theorem per claim (with its
counterexample and witness where required). -/

theorem abs_roundHalfEven_sub_le (x : ℚ) : |(roundHalfEven x : ℚ) - x| ≤ 1/2 := by
  have h0 : 0 ≤ Int.fract x := Int.fract_nonneg x
  have h1 : Int.fract x < 1 := Int.fract_lt_one x
  have hd : Int.fract x = x - (⌊x⌋ : ℚ) := rfl
  rw [roundHalfEven, abs_le]
  split
  · constructor <;> [linarith [hd]; linarith [hd]]
  · split
    · push_cast
      constructor <;> linarith [hd]
    · split
      · constructor <;> linarith [hd]
      · push_cast
        constructor <;> linarith [hd]

theorem abs_pyRound9_sub_le (x : ℚ) : |pyRound9 x - x| ≤ 1/2000000000 := by
  have h := abs_roundHalfEven_sub_le (x * 10 ^ 9)
  have h9 : (0:ℚ) < 10 ^ 9 := by norm_num
  have hx : pyRound9 x - x = ((roundHalfEven (x * 10 ^ 9) : ℚ) - x * 10 ^ 9) / 10 ^ 9 := by
    rw [pyRound9]; ring
  rw [hx, abs_div, abs_of_pos h9, div_le_iff₀ h9]
  calc |(roundHalfEven (x * 10 ^ 9) : ℚ) - x * 10 ^ 9| ≤ 1/2 := h
    _ ≤ 1/2000000000 * 10 ^ 9 := by norm_num

theorem snapTime_le (t : ℚ) : snapTime t ≤ t + 1/2000000000 := by
  rw [snapTime]
  split
  · have := abs_pyRound9_sub_le t
    rw [abs_le] at this
    linarith [this.2]
  · linarith

theorem le_snapTime (t : ℚ) : t - 1/2000000000 ≤ snapTime t := by
  rw [snapTime]
  split
  · have := abs_pyRound9_sub_le t
    rw [abs_le] at this
    linarith [this.1]
  · linarith

theorem pydanticModelContains_eq_false (key : String) (l : List String) :
    pydanticModelContains key l = false := by
  simp [pydanticModelContains, pyStrEqFieldItem]

theorem prepFutureDelta_eq_none (l : List String) (cur : Option ℚ) :
    prepFutureDelta l cur = none := by
  simp [prepFutureDelta, pydanticModelContains_eq_false]

/-- C3: `apply_incremental_param_changes` starts from the initial set's
full field map and overlays, in sequence order, only the fields
explicitly set in each change; fields not mentioned in any change retain
the initial value, a later change overrides an earlier one for the same
field, and applying an empty sequence returns a value equal to the
input. -/
theorem apply_incremental_param_changes_spec {V : Type} (initial : String → V)
    (changes : List (ParameterChange V)) :
    apply_incremental_param_changes initial [] = initial
    ∧ (∀ k, (∀ ch ∈ changes, ch.params k = none) →
        apply_incremental_param_changes initial changes k = initial k)
    ∧ (∀ ch k, apply_incremental_param_changes initial (changes ++ [ch]) k =
        ((ch.params k).getD (apply_incremental_param_changes initial changes k))) := by
  refine ⟨rfl, ?_, ?_⟩
  · intro k
    induction changes generalizing initial with
    | nil => intro _; rfl
    | cons c cs ih =>
      intro h
      have hc : c.params k = none := h c (List.mem_cons_self c cs)
      have hcs : ∀ ch ∈ cs, ch.params k = none := fun ch hch => h ch (List.mem_cons_of_mem c hch)
      have := ih (dictUpdate initial c.params) hcs
      rw [apply_incremental_param_changes, List.foldl_cons] at *
      rw [this, dictUpdate, hc]
      rfl
  · intro ch k
    rw [apply_incremental_param_changes, apply_incremental_param_changes,
      List.foldl_append, List.foldl_cons, List.foldl_nil]
    rfl

/-- Witness for C3 at concrete inputs: with both changes setting `a`
(first to `5`, then to `7`), the later one wins; the unmentioned field
`b` keeps its initial value `0`; the empty sequence is the identity. -/
theorem apply_incremental_param_changes_spec_witness :
    apply_incremental_param_changes c3init [c3ch1, c3ch2] "a" = 7
    ∧ apply_incremental_param_changes c3init [c3ch1, c3ch2] "b" = 0
    ∧ apply_incremental_param_changes c3init [] = c3init := by
  refine ⟨?_, ?_, (apply_incremental_param_changes_spec c3init []).1⟩
  · have h := (apply_incremental_param_changes_spec c3init [c3ch1]).2.2 c3ch2 "a"
    simpa [c3ch2] using h
  · exact (apply_incremental_param_changes_spec c3init [c3ch1, c3ch2]).2.1 "b"
      (by intro ch hch
          rcases List.mem_cons.mp hch with rfl | hch2
          · rfl
          · rcases List.mem_cons.mp hch2 with rfl | hch3
            · rfl
            · cases hch3)

/-- C7 (amended): `GenericSimulation.iter_run` raises exactly when the
effective end time (`end_time` plus one step size under `inclusive`) is
earlier than `current_time`, or when both a *truthy* `sampling_interval`
(non-`None` and nonzero) and a *truthy* `sampling_years` (non-`None` and
nonempty) are supplied, or when `sampling_interval = 0` is supplied (the
`np.arange` step is zero); `GenericSimulation.run` raises exactly when
`end_time` is earlier than `current_time`.  In all other cases no error
is raised. -/
theorem iter_run_run_error_conditions {σ P : Type} (ctx : SimCtx σ P) (end_time : ℚ)
    (si : Option ℚ) (sy : Option (List ℚ)) (inclusive : Bool) (fuel : ℕ)
    (s : MState σ P) :
    (isErr (iter_run ctx end_time si sy inclusive fuel s) = true ↔
      ((if inclusive then end_time + ctx.delta_time s else end_time) < s.current_time
        ∨ (optFloatTruthy si = true ∧ optListTruthy sy = true)
        ∨ si = some 0))
    ∧ (isErr (run ctx end_time fuel s) = true ↔ end_time < s.current_time) := by
  constructor
  · rw [iter_run]
    by_cases h1 : (if inclusive then end_time + ctx.delta_time s else end_time) < s.current_time
    · rw [if_pos h1]
      exact iff_of_true rfl (Or.inl h1)
    · rw [if_neg h1]
      by_cases h2 : (optFloatTruthy si && optListTruthy sy) = true
      · rw [if_pos h2]
        rw [Bool.and_eq_true] at h2
        exact iff_of_true rfl (Or.inr (Or.inl h2))
      · rw [if_neg h2]
        rw [Bool.and_eq_true, not_and_or] at h2
        cases si with
        | none =>
          refine iff_of_false (by simp [isErr]) ?_
          rintro (h | ⟨hf, _⟩ | h3)
          · exact h1 h
          · simp [optFloatTruthy] at hf
          · cases h3
        | some iv =>
          simp only [npArange]
          by_cases hz : iv = 0
          · rw [if_pos hz]
            exact iff_of_true rfl (Or.inr (Or.inr (by rw [hz])))
          · rw [if_neg hz]
            refine iff_of_false (by simp [isErr]) ?_
            rintro (h | ⟨hf, hl⟩ | h3)
            · exact h1 h
            · rcases h2 with h2 | h2
              · exact h2 hf
              · exact h2 hl
            · exact hz (by injection h3)
  · rw [run]
    by_cases h1 : end_time < s.current_time
    · rw [if_pos h1]
      exact iff_of_true rfl h1
    · rw [if_neg h1]
      exact iff_of_false (by simp [isErr]) h1

/-- C7 counterexample: `sampling_interval = 1.0` and `sampling_years = []`
are both supplied (both are not `None`), yet `iter_run` raises no error
— the conflict check `if sampling_interval and sampling_years` tests
Python truthiness and the empty list is falsy. -/
theorem iter_run_error_conditions_ce :
    isErr (iter_run unitSimCtx 5 (some 1) (some ([] : List ℚ)) false 3 unitState0) = false := by
  rfl

/-! ### Schedule selection lemmas (`find_next_params_index`) -/

theorem firstIdxAfter_sorted {P : Type} (t : ℚ) :
    ∀ ps : List (ℚ × P), ps.Pairwise (fun a b => a.1 < b.1) →
      firstIdxAfter t ps =
        (if (ps.filter fun pr => decide (pr.1 ≤ t)).length = ps.length then none
         else some (ps.filter fun pr => decide (pr.1 ≤ t)).length)
  | [], _ => by simp [firstIdxAfter]
  | pr :: rest, h => by
    rw [firstIdxAfter]
    rcases lt_or_le t pr.1 with hlt | hle
    · rw [if_pos hlt]
      have hall : ∀ b ∈ rest, pr.1 < b.1 := (List.pairwise_cons.mp h).1
      have hfilter : (pr :: rest).filter (fun q => decide (q.1 ≤ t)) = [] := by
        rw [List.filter_eq_nil_iff]
        intro a ha
        simp only [decide_eq_true_eq, not_le]
        rcases List.mem_cons.mp ha with rfl | hmem
        · exact hlt
        · exact lt_trans hlt (hall a hmem)
      rw [hfilter]
      simp
    · rw [if_neg (not_lt.mpr hle)]
      have ih := firstIdxAfter_sorted t rest (List.pairwise_cons.mp h).2
      rw [ih]
      have hc : (pr :: rest).filter (fun q => decide (q.1 ≤ t)) =
          pr :: rest.filter (fun q => decide (q.1 ≤ t)) := by
        simp [List.filter_cons, hle]
      rw [hc]
      simp only [List.length_cons]
      by_cases hn : (rest.filter fun q => decide (q.1 ≤ t)).length = rest.length
      · rw [if_pos hn, if_pos (by rw [hn])]
        rfl
      · rw [if_neg hn, if_neg (by omega)]
        rfl

theorem filter_le_eq_take {P : Type} (t : ℚ) :
    ∀ ps : List (ℚ × P), ps.Pairwise (fun a b => a.1 < b.1) →
      ps.filter (fun pr => decide (pr.1 ≤ t)) =
        ps.take ((ps.filter fun pr => decide (pr.1 ≤ t)).length)
  | [], _ => by simp
  | pr :: rest, h => by
    rcases lt_or_le t pr.1 with hlt | hle
    · have hall : ∀ b ∈ rest, pr.1 < b.1 := (List.pairwise_cons.mp h).1
      have hfilter : (pr :: rest).filter (fun q => decide (q.1 ≤ t)) = [] := by
        rw [List.filter_eq_nil_iff]
        intro a ha
        simp only [decide_eq_true_eq, not_le]
        rcases List.mem_cons.mp ha with rfl | hmem
        · exact hlt
        · exact lt_trans hlt (hall a hmem)
      rw [hfilter]
      rfl
    · have ih := filter_le_eq_take t rest (List.pairwise_cons.mp h).2
      have hc : (pr :: rest).filter (fun q => decide (q.1 ≤ t)) =
          pr :: rest.filter (fun q => decide (q.1 ≤ t)) := by
        simp [List.filter_cons, hle]
      rw [hc]
      simp only [List.length_cons, List.take_succ_cons]
      rw [← ih]

theorem getLast?_cons_of_ne_nil {α : Type} (a : α) (l : List α) (h : l ≠ []) :
    (a :: l).getLast? = l.getLast? := by
  cases l with
  | nil => exact absurd rfl h
  | cons b t => rfl

theorem getLast?_take_eq_get? {α : Type} :
    ∀ (l : List α) (n : ℕ), 1 ≤ n → n ≤ l.length → (l.take n).getLast? = l.get? (n - 1)
  | [], n, h1, h2 => by simp at h2; omega
  | a :: rest, 1, _, _ => by simp
  | a :: rest, n + 2, _, h2 => by
    have hr : 1 ≤ n + 1 := by omega
    have hr2 : n + 1 ≤ rest.length := by
      simp only [List.length_cons] at h2
      omega
    have ih := getLast?_take_eq_get? rest (n + 1) hr hr2
    have hne : rest.take (n + 1) ≠ [] := by
      intro hnil
      have hlen := congrArg List.length hnil
      rw [List.length_take] at hlen
      simp only [List.length_nil] at hlen
      omega
    rw [List.take_succ_cons, getLast?_cons_of_ne_nil a _ hne, ih]
    simp

theorem find_next_params_index_sorted {P : Type} (ps : List (ℚ × P)) (t : ℚ)
    (hs : ps.Pairwise (fun a b => a.1 < b.1)) (hex : ∃ pr ∈ ps, pr.1 ≤ t) :
    find_next_params_index ps t =
        .ok ((ps.filter fun pr => decide (pr.1 ≤ t)).length)
      ∧ 1 ≤ (ps.filter fun pr => decide (pr.1 ≤ t)).length
      ∧ (ps.filter fun pr => decide (pr.1 ≤ t)).length ≤ ps.length
      ∧ activeParams ps t =
          (ps.get? ((ps.filter fun pr => decide (pr.1 ≤ t)).length - 1)).map Prod.snd := by
  obtain ⟨pr0, hmem, hle⟩ := hex
  have hpos : 0 < (ps.filter fun pr => decide (pr.1 ≤ t)).length :=
    List.length_pos_of_mem (List.mem_filter.mpr ⟨hmem, by simpa using hle⟩)
  have hlen : (ps.filter fun pr => decide (pr.1 ≤ t)).length ≤ ps.length :=
    List.length_filter_le _ _
  have hfind : find_next_params_index ps t =
      .ok ((ps.filter fun pr => decide (pr.1 ≤ t)).length) := by
    rw [find_next_params_index, firstIdxAfter_sorted t ps hs]
    by_cases hn : (ps.filter fun pr => decide (pr.1 ≤ t)).length = ps.length
    · rw [if_pos hn, hn]
    · rw [if_neg hn]
      have h1 : ¬ ((ps.filter fun pr => decide (pr.1 ≤ t)).length < 1) := by omega
      simp [h1]
  refine ⟨hfind, by omega, hlen, ?_⟩
  simp only [activeParams]
  rw [filter_le_eq_take t ps hs, getLast?_take_eq_get? ps _ (by omega) hlen]
  simp [List.length_take, Nat.min_eq_left hlen]

/-- Unfolding of the `endgame` branch of `GenericEndgame.__init__`. -/
theorem endgameInit_endgame_eq {σ P E : Type} (ctx : EGCtx σ P)
    (convert : E → List (ℚ × P)) (e : E) (t : ℚ) :
    endgameInit ctx convert (some e) none t =
      (if (convert e).length = 0 then Except.error "AssertionError"
       else
         match find_next_params_index (convert e) t with
         | .error msg => .error msg
         | .ok idx =>
           match (convert e).get? (idx - 1) with
           | none => .error "IndexError"
           | some pr => .ok ⟨ctx.from_params pr.2 t, convert e, idx⟩) := rfl

/-- C6: when some Schedule entry has `activation_time ≤ start_time` (and
the converter's Schedule is strictly increasing by activation time, as
its contract requires), `GenericEndgame.__init__` selects the entry with
the greatest `activation_time ≤ start_time`, constructs the inner
simulation with that entry's `ParameterSet` at `start_time`, and sets
`next_params_index` to the position immediately after the selected
entry. -/
theorem endgameInit_selects_active {σ P E : Type} (ctx : EGCtx σ P)
    (convert : E → List (ℚ × P)) (e : E) (start_time : ℚ)
    (hs : (convert e).Pairwise (fun a b => a.1 < b.1))
    (hex : ∃ pr ∈ convert e, pr.1 ≤ start_time) :
    ∃ g, endgameInit ctx convert (some e) none start_time = .ok g
      ∧ g.param_set = convert e
      ∧ g.next_params_index =
          ((convert e).filter fun pr => decide (pr.1 ≤ start_time)).length
      ∧ g.sim.current_time = start_time
      ∧ g.sim.previous_delta_time = none
      ∧ some g.sim.params = activeParams (convert e) start_time := by
  obtain ⟨hfind, h1, hlen, hact⟩ :=
    find_next_params_index_sorted (convert e) start_time hs hex
  have hne : (convert e).length ≠ 0 := by
    obtain ⟨pr0, hmem, _⟩ := hex
    have := List.length_pos_of_mem hmem
    omega
  obtain ⟨pr, hpr⟩ : ∃ pr, (convert e).get?
      (((convert e).filter fun pr => decide (pr.1 ≤ start_time)).length - 1) = some pr :=
    ⟨_, List.get?_eq_get (by omega)⟩
  refine ⟨⟨ctx.from_params pr.2 start_time, convert e,
      ((convert e).filter fun pr => decide (pr.1 ≤ start_time)).length⟩,
    ?_, rfl, rfl, rfl, rfl, ?_⟩
  · simp only [endgameInit_endgame_eq, if_neg hne, hfind, hpr]
  · rw [hact, hpr]
    rfl

/-- Witness for C6 at a concrete schedule `[(0, A), (2, B)]` and
`start_time = 1`: entry `(0, A)` is selected. -/
theorem endgameInit_selects_active_witness :
    ∃ g, endgameInit egCtxN (fun _ : Unit => [((0:ℚ), (0:ℕ)), (2, 1)]) (some ()) none 1
        = .ok g
      ∧ g.param_set = [((0:ℚ), (0:ℕ)), (2, 1)]
      ∧ g.next_params_index =
          ([((0:ℚ), (0:ℕ)), (2, 1)].filter fun pr => decide (pr.1 ≤ 1)).length
      ∧ g.sim.current_time = 1
      ∧ g.sim.previous_delta_time = none
      ∧ some g.sim.params = activeParams [((0:ℚ), (0:ℕ)), (2, 1)] 1 :=
  endgameInit_selects_active egCtxN (fun _ : Unit => [((0:ℚ), (0:ℕ)), (2, 1)]) () 1
    (by
      refine List.Pairwise.cons ?_ (List.Pairwise.cons ?_ List.Pairwise.nil)
      · intro b hb
        rcases List.mem_cons.mp hb with rfl | hb2
        · norm_num
        · exact absurd hb2 (List.not_mem_nil b)
      · intro b hb
        exact absurd hb (List.not_mem_nil b))
    ⟨(0, 0), List.mem_cons_self _ _, by norm_num⟩

/-- C10: when the Schedule is nonempty and no entry has
`activation_time ≤ t`, `find_next_params_index` raises `ValueError`, and
so do `GenericEndgame.__init__` (at `start_time = t`) and
`reset_endgame` (at current simulated time `t`). -/
theorem find_next_params_index_first_entry_error {σ P E : Type} (ctx : EGCtx σ P)
    (convert : E → List (ℚ × P)) (e : E) (t : ℚ) (g : EG σ P)
    (hne : convert e ≠ [])
    (hall : ∀ pr ∈ convert e, t < pr.1)
    (hg : g.sim.current_time = t) :
    find_next_params_index (convert e) t = .error "Invalid next param index"
    ∧ isErr (endgameInit ctx convert (some e) none t) = true
    ∧ isErr (reset_endgame convert g e) = true := by
  obtain ⟨pr0, rest, hps⟩ := List.exists_cons_of_ne_nil hne
  have hfind : find_next_params_index (convert e) t = .error "Invalid next param index" := by
    rw [find_next_params_index, hps, firstIdxAfter,
      if_pos (hall pr0 (hps ▸ List.mem_cons_self pr0 rest))]
    rfl
  have hlenne : (convert e).length ≠ 0 := by
    rw [hps]
    simp
  refine ⟨hfind, ?_, ?_⟩
  · rw [endgameInit_endgame_eq, if_neg hlenne, hfind]
    rfl
  · simp only [reset_endgame]
    rw [if_neg hlenne, hg, hfind]
    rfl

/-- Witness for C10 at the concrete schedule `[(5, A)]` and time `1`. -/
theorem find_next_params_index_first_entry_error_witness :
    find_next_params_index [((5:ℚ), (0:ℕ))] 1 = .error "Invalid next param index"
    ∧ isErr (endgameInit egCtxN (fun _ : Unit => [((5:ℚ), (0:ℕ))]) (some ()) none 1) = true
    ∧ isErr (reset_endgame (fun _ : Unit => [((5:ℚ), (0:ℕ))])
        ⟨⟨1, none, none, 0, ()⟩, [(5, 0)], 1⟩ ()) = true :=
  find_next_params_index_first_entry_error egCtxN (fun _ : Unit => [((5:ℚ), (0:ℕ))]) () 1
    ⟨⟨1, none, none, 0, ()⟩, [(5, 0)], 1⟩ (by simp)
    (by
      intro pr hpr
      rcases List.mem_cons.mp hpr with rfl | hpr2
      · norm_num
      · exact absurd hpr2 (List.not_mem_nil pr))
    rfl

/-- C8 (amended): `GenericEndgame` construction and `reset_endgame` fail
fatally when the converter's output Schedule is empty; construction also
fails fatally when both an endgame configuration and a persisted input
are supplied, or when neither is supplied.  (No check that the Schedule
is strictly increasing by activation time is performed — see the
counterexample.) -/
theorem endgameInit_reset_failure_conditions {σ P E : Type} (ctx : EGCtx σ P)
    (convert : E → List (ℚ × P)) (t : ℚ) :
    (∀ e : E, convert e = [] → isErr (endgameInit ctx convert (some e) none t) = true)
    ∧ isErr (endgameInit ctx convert none none t) = true
    ∧ (∀ (e : E) (inp : EG σ P),
        isErr (endgameInit ctx convert (some e) (some inp) t) = true)
    ∧ (∀ (e : E) (g : EG σ P), convert e = [] →
        isErr (reset_endgame convert g e) = true) := by
  refine ⟨?_, rfl, fun e inp => rfl, ?_⟩
  · intro e h
    rw [endgameInit_endgame_eq, if_pos (by rw [h]; rfl)]
    rfl
  · intro e g h
    simp only [reset_endgame]
    rw [if_pos (by rw [h]; rfl)]
    rfl

/-- C8 counterexample: a Schedule that is *not* strictly increasing by
activation time — two entries both at time `1` — is accepted by
`GenericEndgame.__init__` without any error (the code checks only
non-emptiness), refuting the claim that construction fails fatally on a
non-strictly-increasing Schedule. -/
theorem endgameInit_no_strict_increase_check_ce :
    endgameInit egCtxN (fun _ : Unit => [((1:ℚ), (10:ℕ)), (1, 20)]) (some ()) none 2
      = .ok ⟨⟨2, none, none, 20, ()⟩, [(1, 10), (1, 20)], 2⟩
    ∧ ¬ ([((1:ℚ), (10:ℕ)), (1, 20)].Pairwise fun a b => a.1 < b.1) := by
  refine ⟨rfl, fun h => ?_⟩
  have := (List.pairwise_cons.mp h).1 (1, 20) (List.mem_cons_self _ _)
  exact absurd this (by norm_num)

/-- Witness for C8 at concrete inputs: empty Schedule at construction and
re-seed, and the both/neither constructor argument combinations. -/
theorem endgameInit_reset_failure_conditions_witness :
    isErr (endgameInit egCtxN (fun _ : Unit => ([] : List (ℚ × ℕ))) (some ()) none 0) = true
    ∧ isErr (endgameInit egCtxN (fun _ : Unit => ([] : List (ℚ × ℕ))) none none 0) = true
    ∧ isErr (endgameInit egCtxN (fun _ : Unit => ([] : List (ℚ × ℕ))) (some ())
        (some ⟨⟨0, none, none, 0, ()⟩, [], 0⟩) 0) = true
    ∧ isErr (reset_endgame (fun _ : Unit => ([] : List (ℚ × ℕ)))
        ⟨⟨0, none, none, 0, ()⟩, [], 0⟩ ()) = true := by
  have h := endgameInit_reset_failure_conditions (E := Unit) egCtxN
    (fun _ => ([] : List (ℚ × ℕ))) 0
  exact ⟨h.1 () rfl, h.2.1, h.2.2.1 () _, h.2.2.2 () _ rfl⟩

/-- C9 (code bug shown on the embedded code): at a failing input — a
pending schedule entry whose parameter model declares a `state` field
with `delta_time = 2` while the installed step size is `1` — the
`_future_delta_time` preparation of `GenericEndgame.run` / `iter_run`
clears the announcement to `None` instead of recording the override.
`"state" in next_params` iterates the pydantic model's
`(field_name, value)` tuples and never matches (even though `"state"` is
among the field names), and had the guard succeeded the code would read
the nonexistent attribute `self.simulation.delta_time`
(`GenericSimulation` defines only `_delta_time`). -/
theorem prepFutureDelta_never_announces :
    prepFutureDelta ["state", "w_rate"] (some 2) = none
    ∧ pydanticModelContains "state" ["state", "w_rate"] = false :=
  ⟨rfl, rfl⟩

/-! ### The sampling loop of `GenericSimulation.iter_run` (C5, C2) -/

theorem stepAdvance_current_time {σ P : Type} (ctx : SimCtx σ P)
    (hadv : ∀ s', (ctx.advance_state s').current_time = s'.current_time)
    (s1 : MState σ P) : (stepAdvance ctx s1).current_time = s1.current_time := by
  simp [stepAdvance, hadv]

theorem iterLoop_spec {σ P : Type} (ctx : SimCtx σ P) (re : ℚ) (ys : Option (List ℚ))
    (hdt : ∀ s', 0 < ctx.delta_time s')
    (hadv : ∀ s', (ctx.advance_state s').current_time = s'.current_time) :
    ∀ (fuel idx : ℕ) (s : MState σ P),
      (∀ x ∈ (iterLoop ctx re ys fuel idx s).samples, x.current_time < re)
      ∧ (iterLoop ctx re ys fuel idx s).samples.length ≤ fuel
      ∧ (s.current_time ≤ re + 1/2000000000 →
          (iterLoop ctx re ys fuel idx s).final.current_time ≤ re + 1/2000000000)
  | 0, idx, s => by
    refine ⟨?_, ?_, fun h => h⟩ <;> simp [iterLoop]
  | fuel + 1, idx, s => by
    simp only [iterLoop]
    by_cases hg : s.current_time + ctx.delta_time s ≤ re
    · rw [if_pos hg]
      have hslt : s.current_time < re := lt_of_lt_of_le (by linarith [hdt s]) hg
      have hnt : (stepAdvance ctx
          { s with current_time := snapTime (s.current_time + ctx.delta_time s) }).current_time
          ≤ re + 1/2000000000 := by
        rw [stepAdvance_current_time ctx hadv]
        have := snapTime_le (s.current_time + ctx.delta_time s)
        simp only
        linarith
      generalize (match ys with
        | none => false
        | some l =>
          decide (idx < l.length) && decide (0 ≤ s.current_time - l.getD idx 0)) = onS
      generalize hnext : stepAdvance ctx
        { s with current_time := snapTime (s.current_time + ctx.delta_time s) } = snext at hnt
      obtain ⟨ih1, ih2, ih3⟩ :=
        iterLoop_spec ctx re ys hdt hadv fuel (if onS then idx + 1 else idx) snext
      refine ⟨?_, ?_, fun _ => ih3 hnt⟩
      · intro x hx
        have hx' : x = s ∨
            x ∈ (iterLoop ctx re ys fuel (if onS then idx + 1 else idx) snext).samples := by
          cases onS
          · exact Or.inr hx
          · rcases List.mem_cons.mp hx with h | h
            · exact Or.inl h
            · exact Or.inr h
        rcases hx' with rfl | hmem
        · exact hslt
        · exact ih1 x hmem
      · cases onS
        · simpa using Nat.le_succ_of_le ih2
        · simpa using Nat.succ_le_succ ih2
    · rw [if_neg hg]
      exact ⟨by simp, by simp, fun h => h⟩

/-- C5 (amended): during any drain of `GenericSimulation.iter_run` (with
positive step sizes and an advance function that leaves `current_time`
alone, per the advance-state contract), every yielded snapshot is the
pre-advance State whose `current_time` is strictly less than the
effective end time; at most one snapshot is yielded per step; and the
final `current_time` never exceeds the effective end time *by more than
`5·10⁻¹⁰`* (the integer-snap rounding can carry it past the end time by
up to half of the 9-decimal rounding granularity — see the
counterexample). -/
theorem iter_run_yield_bounds {σ P : Type} (ctx : SimCtx σ P) (end_time : ℚ)
    (si : Option ℚ) (sy : Option (List ℚ)) (inclusive : Bool) (fuel : ℕ)
    (s : MState σ P) (out : IterOut σ P)
    (hdt : ∀ s', 0 < ctx.delta_time s')
    (hadv : ∀ s', (ctx.advance_state s').current_time = s'.current_time)
    (hok : iter_run ctx end_time si sy inclusive fuel s = .ok out) :
    (∀ x ∈ out.samples, x.current_time <
        (if inclusive then end_time + ctx.delta_time s else end_time))
    ∧ out.samples.length ≤ fuel
    ∧ out.final.current_time ≤
        (if inclusive then end_time + ctx.delta_time s else end_time) + 1/2000000000 := by
  rw [iter_run] at hok
  set re := if inclusive then end_time + ctx.delta_time s else end_time with hre
  by_cases h1 : re < s.current_time
  · rw [if_pos h1] at hok
    simp at hok
  · rw [if_neg h1] at hok
    have ht : s.current_time ≤ re + 1/2000000000 := by
      have := not_lt.mp h1
      linarith
    by_cases h2 : (optFloatTruthy si && optListTruthy sy) = true
    · rw [if_pos h2] at hok
      simp at hok
    · rw [if_neg h2] at hok
      cases si with
      | none =>
        have hout : out = iterLoop ctx re
            (if optListTruthy sy = true then sy.map pySorted else sy) fuel 0 s := by
          simp only [Except.ok.injEq] at hok
          exact hok.symm
        obtain ⟨ha, hb, hc⟩ := iterLoop_spec ctx re
          (if optListTruthy sy = true then sy.map pySorted else sy) hdt hadv fuel 0 s
        rw [hout]
        exact ⟨ha, hb, hc ht⟩
      | some iv =>
        simp only [npArange] at hok
        by_cases hz : iv = 0
        · rw [if_pos hz] at hok
          simp at hok
        · rw [if_neg hz] at hok
          have hout : out = iterLoop ctx re
              (some ((List.range (⌈(re - s.current_time) / iv⌉.toNat)).map
                fun k => s.current_time + k * iv)) fuel 0 s := by
            simp only [Except.ok.injEq] at hok
            exact hok.symm
          obtain ⟨ha, hb, hc⟩ := iterLoop_spec ctx re
            (some ((List.range (⌈(re - s.current_time) / iv⌉.toNat)).map
              fun k => s.current_time + k * iv)) hdt hadv fuel 0 s
          rw [hout]
          exact ⟨ha, hb, hc ht⟩

/-- C5 counterexample: with step size `0.9999999996` and
`end_time = 0.9999999996` (no sampling, not inclusive), the single step
lands on `0.9999999996`, which rounds to the integer `1` at 9 decimal
places, so the snap sets `current_time = 1 >` the effective end time —
the final `current_time` *does* exceed the effective end time. -/
theorem iter_run_final_time_ce :
    iter_run driftCtx dtDrift none none false 3 unitState0
      = .ok ⟨[], ⟨1, some dtDrift, none, (), ()⟩, 0⟩
    ∧ dtDrift < 1 := by
  constructor
  · with_unfolding_all rfl
  · rw [dtDrift]
    norm_num

/-! ### `run` versus draining `iter_run` (C2) -/

theorem iterLoop_eq_runLoop_of_snapFree {σ P : Type} (ctx : SimCtx σ P) (re : ℚ) :
    ∀ (fuel idx : ℕ) (s : MState σ P), snapFreeB ctx re fuel s = true →
      iterLoop ctx re none fuel idx s = ⟨[], runLoop ctx re fuel s, idx⟩
  | 0, idx, s, _ => rfl
  | fuel + 1, idx, s, hsf => by
    simp only [snapFreeB] at hsf
    simp only [iterLoop, runLoop]
    by_cases hg : s.current_time + ctx.delta_time s ≤ re
    · rw [if_pos hg] at hsf ⊢
      rw [if_pos hg]
      rw [Bool.and_eq_true] at hsf
      have hsnap : snapTime (s.current_time + ctx.delta_time s) =
          s.current_time + ctx.delta_time s := of_decide_eq_true hsf.1
      rw [hsnap]
      exact iterLoop_eq_runLoop_of_snapFree ctx re fuel idx
        (stepAdvance ctx { s with current_time := s.current_time + ctx.delta_time s })
        (hsnap ▸ hsf.2)
    · rw [if_neg hg] at hsf ⊢
      rw [if_neg hg]

/-- C2 (amended): provided the integer snap leaves every `current_time`
reached by the drain unchanged (`snapFreeB` — e.g. whenever all times
stay on the exact 9-decimal grid), `GenericSimulation.run(end_time)`
leaves the State in exactly the condition that draining
`iter_run(end_time)` with no sampling policy does: the same final State
(hence the same final `current_time` and `_previous_delta_time`), with
no snapshots yielded.  Without that proviso the two differ, because
`run`'s loop omits the snap — see the counterexample. -/
theorem run_eq_iter_run_drain {σ P : Type} (ctx : SimCtx σ P) (end_time : ℚ)
    (fuel : ℕ) (s : MState σ P)
    (he : s.current_time ≤ end_time)
    (hsf : snapFreeB ctx end_time fuel s = true) :
    ∃ r, run ctx end_time fuel s = .ok r
      ∧ iter_run ctx end_time none none false fuel s = .ok ⟨[], r, 0⟩ := by
  refine ⟨runLoop ctx end_time fuel s, ?_, ?_⟩
  · rw [run, if_neg (not_lt.mpr he)]
  · rw [iter_run]
    rw [show (if (false : Bool) then end_time + ctx.delta_time s else end_time)
        = end_time from rfl]
    rw [if_neg (not_lt.mpr he), if_neg (by simp [optFloatTruthy, optListTruthy])]
    show Except.ok (iterLoop ctx end_time none fuel 0 s)
        = Except.ok (⟨[], runLoop ctx end_time fuel s, 0⟩ : IterOut σ P)
    rw [iterLoop_eq_runLoop_of_snapFree ctx end_time fuel 0 s hsf]

/-- C2 counterexample: with step size `0.9999999996` from time `0` to
`end_time = 2`, `run` ends at `1.9999999992` but draining `iter_run`
(no sampling) ends at `2`: the snap fires after each `iter_run` step and
is absent from `run`'s loop, so the two final states differ. -/
theorem run_iter_run_differ_ce :
    run driftCtx 2 5 unitState0
      = .ok ⟨2499999999/1250000000, some dtDrift, none, (), ()⟩
    ∧ iter_run driftCtx 2 none none false 5 unitState0
      = .ok ⟨[], ⟨2, some dtDrift, none, (), ()⟩, 0⟩
    ∧ (2499999999/1250000000 : ℚ) ≠ 2 := by
  refine ⟨?_, ?_, by norm_num⟩
  · with_unfolding_all rfl
  · with_unfolding_all rfl

/-- Witness for C2 at a concrete drain: step size `1`, end time `3` — all
times are integers, so the snap is the identity along the whole
trajectory. -/
theorem run_eq_iter_run_drain_witness :
    ∃ r, run unitSimCtx 3 5 unitState0 = .ok r
      ∧ iter_run unitSimCtx 3 none none false 5 unitState0 = .ok ⟨[], r, 0⟩ :=
  run_eq_iter_run_drain unitSimCtx 3 5 unitState0 (by decide)
    (by with_unfolding_all decide)

/-! ### Read-only diff lemmas (C4) -/

mutual
theorem PVal.beq_iff : ∀ (a b : PVal), PVal.beq a b = true ↔ a = b
  | .pynone, .pynone => by simp [PVal.beq]
  | .pynone, .int _ => by simp [PVal.beq]
  | .pynone, .obj _ => by simp [PVal.beq]
  | .int _, .pynone => by simp [PVal.beq]
  | .int _, .int _ => by simp [PVal.beq]
  | .int _, .obj _ => by simp [PVal.beq]
  | .obj _, .pynone => by simp [PVal.beq]
  | .obj _, .int _ => by simp [PVal.beq]
  | .obj d, .obj e => by
    rw [show PVal.beq (.obj d) (.obj e) = pdictBeq d e from by simp [PVal.beq]]
    rw [pdictBeq_iff d e]
    simp
termination_by a _ => sizeOf a

theorem pdictBeq_iff : ∀ (a b : List (String × PVal)), pdictBeq a b = true ↔ a = b
  | [], [] => by simp [pdictBeq]
  | [], _ :: _ => by simp [pdictBeq]
  | _ :: _, [] => by simp [pdictBeq]
  | (k, v) :: r, (k', v') :: r' => by
    rw [show pdictBeq ((k, v) :: r) ((k', v') :: r') =
        (k == k' && PVal.beq v v' && pdictBeq r r') from by simp [pdictBeq]]
    simp only [Bool.and_eq_true, beq_iff_eq]
    rw [PVal.beq_iff v v', pdictBeq_iff r r']
    constructor
    · rintro ⟨⟨rfl, rfl⟩, rfl⟩
      rfl
    · intro h
      cases h
      exact ⟨⟨rfl, rfl⟩, rfl⟩
termination_by l _ => sizeOf l
end

theorem PVal.beq_self (a : PVal) : PVal.beq a a = true := (PVal.beq_iff a a).mpr rfl

theorem PVal.beq_eq_false (a b : PVal) (h : a ≠ b) : PVal.beq a b = false := by
  rw [← Bool.not_eq_true, PVal.beq_iff]
  exact h

theorem dlookup_eq_of_mem_nodup :
    ∀ (d : List (String × PVal)) (k : String) (v : PVal),
      (keysOf d).Nodup → (k, v) ∈ d → dlookup k d = some v
  | [], _, _, _, hm => absurd hm (List.not_mem_nil _)
  | (k', v') :: rest, k, v, hnd, hm => by
    rw [dlookup]
    rcases List.mem_cons.mp hm with heq | hmem
    · injection heq with h1 h2
      subst h1
      subst h2
      rw [if_pos rfl]
    · have hk : k ≠ k' := by
        intro h
        subst h
        have : k ∈ keysOf rest := List.mem_map.mpr ⟨(k, v), hmem, rfl⟩
        exact (List.pairwise_cons.mp hnd).1 k this rfl
      rw [if_neg hk]
      exact dlookup_eq_of_mem_nodup rest k v (List.pairwise_cons.mp hnd).2 hmem

theorem dlookup_cons_ne (k k' : String) (v : PVal) (rest : List (String × PVal))
    (h : k ≠ k') : dlookup k ((k', v) :: rest) = dlookup k rest := by
  rw [dlookup, if_neg h]

theorem except_bind_ok {ε α β : Type} (a : α) (f : α → Except ε β) :
    (Except.ok a >>= f : Except ε β) = f a := rfl

theorem dictConformsB_eq (fuel : ℕ) (d : List (String × PVal)) (fl : PFields) :
    dictConformsB fuel d fl =
      (decide (keysOf d).Nodup &&
        d.all (fieldShapeOK (fun sd sm =>
          match fuel with
          | 0 => false
          | fuel' + 1 => dictConformsB fuel' sd sm.fields) fl)) := by
  cases fuel <;> rfl

/-- Unpack `dictConformsB` at a cons cell. -/
theorem dictConformsB_cons (fuel : ℕ) (k : String) (v : PVal)
    (rest : List (String × PVal)) (fl : PFields)
    (h : dictConformsB fuel ((k, v) :: rest) fl = true) :
    dictConformsB fuel rest fl = true
    ∧ k ∉ keysOf rest
    ∧ (∃ am, (fl.lookup k = some (am, none)
          ∧ (v = PVal.pynone ∨ ∃ n, v = PVal.int n))
        ∨ ∃ sm, fl.lookup k = some (am, some sm)
          ∧ (v = PVal.pynone
             ∨ ∃ sd fuel', fuel = fuel' + 1 ∧ v = PVal.obj sd
                ∧ dictConformsB fuel' sd sm.fields = true)) := by
  rw [dictConformsB_eq, Bool.and_eq_true, List.all_cons, Bool.and_eq_true] at h
  obtain ⟨hnd, hhead, htail⟩ := h
  have hnd' := of_decide_eq_true hnd
  refine ⟨?_, ?_, ?_⟩
  · rw [dictConformsB_eq, Bool.and_eq_true]
    exact ⟨decide_eq_true (List.pairwise_cons.mp hnd').2, htail⟩
  · intro hk
    exact (List.pairwise_cons.mp hnd').1 k hk rfl
  · rcases hlk : fl.lookup k with _ | ⟨am, ty⟩
    · simp only [fieldShapeOK, hlk] at hhead
      exact absurd hhead Bool.false_ne_true
    · rcases ty with _ | sm
      · refine ⟨am, Or.inl ⟨rfl, ?_⟩⟩
        rcases v with _ | n | sd
        · exact Or.inl rfl
        · exact Or.inr ⟨n, rfl⟩
        · simp only [fieldShapeOK, hlk] at hhead
          exact absurd hhead Bool.false_ne_true
      · refine ⟨am, Or.inr ⟨sm, rfl, ?_⟩⟩
        rcases v with _ | n | sd
        · exact Or.inl rfl
        · simp only [fieldShapeOK, hlk] at hhead
          exact absurd hhead Bool.false_ne_true
        · cases fuel with
          | zero =>
            simp only [fieldShapeOK, hlk] at hhead
            exact absurd hhead Bool.false_ne_true
          | succ fuel' =>
            simp only [fieldShapeOK, hlk] at hhead
            exact Or.inr ⟨sd, fuel', rfl, rfl, hhead⟩

theorem dictConformsB_nodup (fuel : ℕ) (d : List (String × PVal)) (fl : PFields)
    (h : dictConformsB fuel d fl = true) : (keysOf d).Nodup := by
  rw [dictConformsB_eq, Bool.and_eq_true] at h
  exact of_decide_eq_true h.1

/-- When the `update_dict` values agree with `initial_dict` on every
read-only field that an update item mentions, the iteration collects
nothing. -/
theorem diffGo_nil :
    ∀ (fuel : ℕ) (u ini : List (String × PVal)) (fl : PFields),
      dictConformsB fuel u fl = true →
      (∀ k v ty, (k, v) ∈ u → fl.lookup k = some (false, ty) →
        dlookup k ini = some v ∨ dlookup k ini = none) →
      diffGo fuel u ini fl = .ok .nil
  | fuel, [], ini, fl, _, _ => by simp [diffGo]
  | fuel, (k, new_v) :: rest, ini, fl, hconf, hro => by
    obtain ⟨hcr, hknr, am, hhead⟩ := dictConformsB_cons fuel k new_v rest fl hconf
    have hrest : diffGo fuel rest ini fl = .ok .nil :=
      diffGo_nil fuel rest ini fl hcr
        (fun k' v' ty hm hl => hro k' v' ty (List.mem_cons_of_mem _ hm) hl)
    simp only [diffGo]
    rw [hrest, except_bind_ok]
    rcases hini : dlookup k ini with _ | old_v
    · simp only [hini]
    · simp only [hini]
      by_cases hpn : old_v = PVal.pynone
      · rw [hpn, if_pos (PVal.beq_self PVal.pynone)]
      · rw [if_neg (fun hc => hpn ((PVal.beq_iff _ _).mp hc))]
        rcases hhead with ⟨hlk, hshape⟩ | ⟨sm, hlk, hshape⟩
        · simp only [hlk]
          by_cases ham : am = true
          · rw [if_pos ham]
          · rw [if_neg ham]
            have hov : dlookup k ini = some new_v ∨ dlookup k ini = none :=
              hro k new_v none (List.mem_cons_self _ _) (by
                cases am
                · exact hlk
                · exact absurd rfl ham)
            have hoveq : old_v = new_v := by
              rcases hov with hov | hov
              · rw [hini] at hov
                injection hov
              · rw [hini] at hov
                cases hov
            rw [hoveq, if_pos (PVal.beq_self new_v)]
        · simp only [hlk]
          by_cases ham : am = true
          · rw [if_pos ham]
          · rw [if_neg ham]
            have hov : dlookup k ini = some new_v ∨ dlookup k ini = none :=
              hro k new_v (some sm) (List.mem_cons_self _ _) (by
                cases am
                · exact hlk
                · exact absurd rfl ham)
            have hoveq : old_v = new_v := by
              rcases hov with hov | hov
              · rw [hini] at hov
                injection hov
              · rw [hini] at hov
                cases hov
            rcases hshape with hv | ⟨sd, fuel', rfl, hv, hcs⟩
            · exact absurd (hoveq.trans hv) hpn
            · subst hv
              subst hoveq
              have hsub : diffGo fuel' sd sd sm.fields = .ok .nil :=
                diffGo_nil fuel' sd sd sm.fields hcs
                  (fun k' v' ty hm _ =>
                    Or.inl (dlookup_eq_of_mem_nodup sd k' v'
                      (dictConformsB_nodup fuel' sd sm.fields hcs) hm))
              show (diffGo fuel' sd sd sm.fields >>= fun out =>
                  if out.isNil = true then Except.ok OutMap.nil
                  else Except.ok (OutMap.cons k (OutEntry.nested out) OutMap.nil))
                = Except.ok OutMap.nil
              rw [hsub, except_bind_ok]
              rfl
termination_by fuel u => (fuel, u.length)

theorem dlookup_mem : ∀ (d : List (String × PVal)) (k : String) (v : PVal),
    dlookup k d = some v → (k, v) ∈ d
  | [], k, v, h => by rw [dlookup] at h; cases h
  | (k', v') :: rest, k, v, h => by
    rw [dlookup] at h
    by_cases hk : k = k'
    · rw [if_pos hk] at h
      injection h with h
      subst hk
      subst h
      exact List.mem_cons_self _ _
    · rw [if_neg hk] at h
      exact List.mem_cons_of_mem _ (dlookup_mem rest k v h)

theorem mem_keysOf (d : List (String × PVal)) (k : String) (v : PVal)
    (h : (k, v) ∈ d) : k ∈ keysOf d :=
  List.mem_map.mpr ⟨(k, v), h, rfl⟩

theorem dictConformsB_of_mem :
    ∀ (fuel : ℕ) (d : List (String × PVal)) (fl : PFields) (k : String) (v : PVal),
      dictConformsB fuel d fl = true → (k, v) ∈ d →
      ∃ am, (fl.lookup k = some (am, none)
            ∧ (v = PVal.pynone ∨ ∃ n, v = PVal.int n))
        ∨ ∃ sm, fl.lookup k = some (am, some sm)
            ∧ (v = PVal.pynone
               ∨ ∃ sd fuel', fuel = fuel' + 1 ∧ v = PVal.obj sd
                  ∧ dictConformsB fuel' sd sm.fields = true)
  | _, [], _, _, _, _, hm => absurd hm (List.not_mem_nil _)
  | fuel, (k', v') :: rest, fl, k, v, hconf, hm => by
    obtain ⟨hcr, _, hsh⟩ := dictConformsB_cons fuel k' v' rest fl hconf
    rcases List.mem_cons.mp hm with heq | hmem
    · cases heq
      exact hsh
    · exact dictConformsB_of_mem fuel rest fl k v hcr hmem

theorem chainOut_isNil_false (k : String) (p : List String) (ov nv : PVal) :
    (chainOut (k :: p) ov nv).isNil = false := by
  cases p <;> rfl

theorem differsOnlyAt_lookup_new (m : PModel) (old new : List (String × PVal))
    (k0 : String) (path' : List String) (ov nv : PVal)
    (h : DiffersOnlyAt m old new (k0 :: path') ov nv) :
    ∃ w, dlookup k0 new = some w := by
  cases path' with
  | nil => exact ⟨nv, h.2.2.1⟩
  | cons k2 p =>
    obtain ⟨sm, od, nd, _, _, hnew, _, _⟩ := h
    exact ⟨_, hnew⟩

/-- The iteration of `_output_read_only_diff` over any duplicate-free
selection `u` of the update dict's items collects exactly the singleton
chain for the differing path when the path's head key is selected, and
nothing otherwise. -/
theorem diffGo_chain :
    ∀ (fuel : ℕ) (m : PModel) (old new : List (String × PVal))
      (k0 : String) (path' : List String) (ov nv : PVal)
      (u : List (String × PVal)),
      dictConformsB fuel new m.fields = true →
      DiffersOnlyAt m old new (k0 :: path') ov nv →
      (∀ kv ∈ u, kv ∈ new) →
      (keysOf u).Nodup →
      diffGo fuel u old m.fields =
        .ok (if k0 ∈ keysOf u then chainOut (k0 :: path') ov nv else .nil)
  | fuel, m, old, new, k0, path', ov, nv, [], _, _, _, _ => by
    simp [diffGo, keysOf]
  | fuel, m, old, new, k0, path', ov, nv, (k, v) :: rest, hconf, hD, hsub, hnd => by
    have hndnew : (keysOf new).Nodup := dictConformsB_nodup _ _ _ hconf
    have hmemnew : (k, v) ∈ new := hsub (k, v) (List.mem_cons_self _ _)
    have hvnew : dlookup k new = some v := dlookup_eq_of_mem_nodup new k v hndnew hmemnew
    have hndr : (keysOf rest).Nodup := (List.pairwise_cons.mp hnd).2
    have hknr : k ∉ keysOf rest := fun hin => (List.pairwise_cons.mp hnd).1 k hin rfl
    have restEq := diffGo_chain fuel m old new k0 path' ov nv rest hconf hD
      (fun kv hm => hsub kv (List.mem_cons_of_mem _ hm)) hndr
    have hkeys : keysOf ((k, v) :: rest) = k :: keysOf rest := rfl
    by_cases hk : k = k0
    · subst hk
      rw [if_neg (fun hin => hknr hin)] at restEq
      rw [hkeys, if_pos (List.mem_cons_self _ _)]
      cases path' with
      | nil =>
        obtain ⟨hlkD, hold, hnew, hne, hnn, hagree⟩ := hD
        have hveq : v = nv := by
          rw [hvnew] at hnew
          injection hnew
        subst hveq
        simp only [diffGo]
        rw [restEq, except_bind_ok]
        simp only [hold]
        rw [if_neg (fun hc => hnn ((PVal.beq_iff _ _).mp hc))]
        simp only [hlkD]
        rw [if_neg Bool.false_ne_true]
        rw [if_neg (fun hc => hne ((PVal.beq_iff _ _).mp hc))]
        rfl
      | cons k2 p =>
        obtain ⟨sm, od, nd, hlkD, hold, hnew, hagree, hD'⟩ := hD
        have hveq : v = PVal.obj nd := by
          rw [hvnew] at hnew
          injection hnew
        subst hveq
        obtain ⟨am, hsh⟩ := dictConformsB_of_mem fuel new m.fields k (PVal.obj nd)
          hconf hmemnew
        rcases hsh with ⟨hlk2, _⟩ | ⟨sm2, hlk2, hshape⟩
        · rw [hlkD] at hlk2
          injection hlk2 with h
          injection h with _ h2
          cases h2
        · rw [hlkD] at hlk2
          injection hlk2 with h
          injection h with ham hsm
          injection hsm with hsm
          subst hsm
          subst ham
          rcases hshape with hv | ⟨sd, fuel', hfuel, hv, hcs⟩
          · cases hv
          · injection hv with hv
            subst hv
            subst hfuel
            have hk2mem : k2 ∈ keysOf nd := by
              obtain ⟨w, hw⟩ := differsOnlyAt_lookup_new sm od nd k2 p ov nv hD'
              exact mem_keysOf nd k2 w (dlookup_mem nd k2 w hw)
            have inner := diffGo_chain fuel' sm od nd k2 p ov nv nd hcs hD'
              (fun kv hm => hm) (dictConformsB_nodup _ _ _ hcs)
            rw [if_pos hk2mem] at inner
            simp only [diffGo]
            rw [restEq, except_bind_ok]
            simp only [hold]
            rw [if_neg (fun hc => PVal.noConfusion ((PVal.beq_iff _ _).mp hc))]
            simp only [hlkD]
            rw [if_neg Bool.false_ne_true]
            show (diffGo fuel' nd od sm.fields >>= fun out =>
                if out.isNil = true then Except.ok OutMap.nil
                else Except.ok (OutMap.cons k (OutEntry.nested out) OutMap.nil))
              = Except.ok (chainOut (k :: k2 :: p) ov nv)
            rw [inner, except_bind_ok]
            rw [if_neg (by rw [chainOut_isNil_false]; exact Bool.false_ne_true)]
            rfl
    · have hagree : dlookup k old = dlookup k new := by
        cases path' with
        | nil => exact hD.2.2.2.2.2 k hk
        | cons k2 p =>
          obtain ⟨sm, od, nd, _, _, _, hagree, _⟩ := hD
          exact hagree k hk
      have hvold : dlookup k old = some v := by rw [hagree, hvnew]
      have hiff : (k0 ∈ keysOf ((k, v) :: rest)) ↔ k0 ∈ keysOf rest := by
        rw [hkeys]
        constructor
        · intro hc
          rcases List.mem_cons.mp hc with h | h
          · exact absurd h.symm hk
          · exact h
        · exact fun h => List.mem_cons_of_mem _ h
      obtain ⟨am, hsh⟩ := dictConformsB_of_mem fuel new m.fields k v hconf hmemnew
      have main : diffGo fuel ((k, v) :: rest) old m.fields =
          .ok (if k0 ∈ keysOf rest then chainOut (k0 :: path') ov nv else .nil) := by
        simp only [diffGo]
        rw [restEq, except_bind_ok]
        simp only [hvold]
        by_cases hpn : v = PVal.pynone
        · rw [hpn, if_pos (PVal.beq_self PVal.pynone)]
        · rw [if_neg (fun hc => hpn ((PVal.beq_iff _ _).mp hc))]
          rcases hsh with ⟨hlk, hshape⟩ | ⟨sm, hlk, hshape⟩
          · simp only [hlk]
            by_cases ham : am = true
            · rw [if_pos ham]
            · rw [if_neg ham]
              rw [if_pos (PVal.beq_self v)]
          · simp only [hlk]
            by_cases ham : am = true
            · rw [if_pos ham]
            · rw [if_neg ham]
              rcases hshape with hv | ⟨sd, fuel', hfuel, hv, hcs⟩
              · exact absurd hv hpn
              · subst hv
                subst hfuel
                have hsubnil : diffGo fuel' sd sd sm.fields = .ok .nil :=
                  diffGo_nil fuel' sd sd sm.fields hcs
                    (fun k' v' ty hm _ =>
                      Or.inl (dlookup_eq_of_mem_nodup sd k' v'
                        (dictConformsB_nodup fuel' sd sm.fields hcs) hm))
                show (diffGo fuel' sd sd sm.fields >>= fun out =>
                    if out.isNil = true then
                      Except.ok (if k0 ∈ keysOf rest then chainOut (k0 :: path') ov nv
                        else OutMap.nil)
                    else Except.ok (OutMap.cons k (OutEntry.nested out)
                      (if k0 ∈ keysOf rest then chainOut (k0 :: path') ov nv
                        else OutMap.nil)))
                  = Except.ok (if k0 ∈ keysOf rest then chainOut (k0 :: path') ov nv
                      else OutMap.nil)
                rw [hsubnil, except_bind_ok]
                rfl
      rw [main]
      by_cases hk0r : k0 ∈ keysOf rest
      · rw [if_pos hk0r, if_pos (hiff.mpr hk0r)]
      · rw [if_neg hk0r, if_neg (fun hc => hk0r (hiff.mp hc))]
termination_by fuel _ _ _ _ _ _ _ u => (fuel, u.length)

theorem innerFlattenMap_chain :
    ∀ (path : List String), path ≠ [] → ∀ (pfx : String) (ov nv : PVal),
      innerFlattenMap pfx (chainOut path ov nv) =
        [("Read only value was changed: \n" ++ pathKey pfx path, ov, nv)]
  | [], hne, _, _, _ => absurd rfl hne
  | [k], _, pfx, ov, nv => by
    simp [chainOut, innerFlattenMap, innerFlattenEntry, pathKey, String.append_assoc]
  | k :: k2 :: p, _, pfx, ov, nv => by
    have ih := innerFlattenMap_chain (k2 :: p) (by simp) (pfx ++ " -> " ++ k) ov nv
    simp [chainOut, innerFlattenMap, innerFlattenEntry, pathKey, ih]

/-- C4 (amended): `get_read_only_differences(P, P)` returns the empty
list; for two ParameterSets of the same schema differing only in mutable
fields it returns the empty list; and for two differing only in one
read-only leaf field *whose old value is not `None`* it returns exactly
one message containing the old value, the new value, and the dotted
path, recursing into nested ParameterSet fields.  (When the old value is
`None`, the `is not None` guard in `_output_read_only_diff` skips the
field — see the counterexample.) -/
theorem get_read_only_differences_spec :
    (∀ (fuel : ℕ) (m : PModel) (d : List (String × PVal)),
        dictConformsB fuel d m.fields = true →
        get_read_only_differences fuel m d d = .ok [])
    ∧ (∀ (fuel : ℕ) (m : PModel) (old new : List (String × PVal)),
        dictConformsB fuel new m.fields = true →
        (∀ k v ty, (k, v) ∈ new → m.fields.lookup k = some (false, ty) →
          dlookup k old = dlookup k new) →
        get_read_only_differences fuel m old new = .ok [])
    ∧ (∀ (fuel : ℕ) (m : PModel) (old new : List (String × PVal))
        (path : List String) (ov nv : PVal),
        dictConformsB fuel new m.fields = true →
        DiffersOnlyAt m old new path ov nv →
        get_read_only_differences fuel m old new = .ok [roMessage m path ov nv]) := by
  have hii : ∀ (fuel : ℕ) (m : PModel) (old new : List (String × PVal)),
      dictConformsB fuel new m.fields = true →
      (∀ k v ty, (k, v) ∈ new → m.fields.lookup k = some (false, ty) →
        dlookup k old = dlookup k new) →
      get_read_only_differences fuel m old new = .ok [] := by
    intro fuel m old new hconf hagree
    have hnil : diffGo fuel new old m.fields = .ok .nil :=
      diffGo_nil fuel new old m.fields hconf (fun k v ty hm hl =>
        Or.inl (by
          rw [hagree k v ty hm hl]
          exact dlookup_eq_of_mem_nodup new k v (dictConformsB_nodup _ _ _ hconf) hm))
    simp only [get_read_only_differences, output_read_only_diff]
    rw [hnil, except_bind_ok]
    rfl
  refine ⟨fun fuel m d hconf => hii fuel m d d hconf (fun k v ty hm hl => rfl), hii, ?_⟩
  intro fuel m old new path ov nv hconf hD
  cases path with
  | nil => exact hD.elim
  | cons k0 path' =>
    have hchain := diffGo_chain fuel m old new k0 path' ov nv new hconf hD
      (fun kv hm => hm) (dictConformsB_nodup _ _ _ hconf)
    have hk0 : k0 ∈ keysOf new := by
      obtain ⟨w, hw⟩ := differsOnlyAt_lookup_new m old new k0 path' ov nv hD
      exact mem_keysOf new k0 w (dlookup_mem new k0 w hw)
    rw [if_pos hk0] at hchain
    simp only [get_read_only_differences, output_read_only_diff]
    rw [hchain, except_bind_ok]
    rw [if_neg (by rw [chainOut_isNil_false]; exact Bool.false_ne_true), except_bind_ok]
    simp only [flattenOutput]
    rw [innerFlattenMap_chain (k0 :: path') (by simp) m.name ov nv]
    simp [roMessage, String.append_assoc]

/-- C4 counterexample: the two single-field ParameterSets differ exactly
in the read-only leaf field `a`, whose old value is `None` — yet
`get_read_only_differences` returns the empty list, not one message: the
`(old_v := initial_dict.get(k)) is not None` guard skips fields whose
old value is `None`. -/
theorem get_read_only_differences_none_ce :
    get_read_only_differences 2 c4ModelFlat [("a", PVal.pynone)] [("a", PVal.int 1)]
      = .ok []
    ∧ PVal.pynone ≠ PVal.int 1 := by
  refine ⟨?_, fun h => by cases h⟩
  simp only [get_read_only_differences, output_read_only_diff]
  rw [show diffGo 2 [("a", PVal.int 1)] [("a", PVal.pynone)] c4ModelFlat.fields
      = .ok .nil from by
    simp [diffGo, c4ModelFlat, dlookup, PVal.beq, except_bind_ok]]
  rfl

/-- Witness for C4 at concrete schemas: equal sets give `[]`, a
mutable-field difference gives `[]`, and a difference in the nested
read-only leaf `inner -> b` gives exactly the one expected message. -/
theorem get_read_only_differences_spec_witness :
    get_read_only_differences 1 c4ModelFlat [("a", PVal.int 1)] [("a", PVal.int 1)]
      = .ok []
    ∧ get_read_only_differences 2 c4ModelNested
        [("inner", PVal.obj [("b", PVal.int 1)]), ("c", PVal.int 0)]
        [("inner", PVal.obj [("b", PVal.int 1)]), ("c", PVal.int 5)]
      = .ok []
    ∧ get_read_only_differences 2 c4ModelNested
        [("inner", PVal.obj [("b", PVal.int 1)]), ("c", PVal.int 0)]
        [("inner", PVal.obj [("b", PVal.int 2)]), ("c", PVal.int 0)]
      = .ok [roMessage c4ModelNested ["inner", "b"] (PVal.int 1) (PVal.int 2)] := by
  refine ⟨?_, ?_, ?_⟩
  · exact get_read_only_differences_spec.1 1 c4ModelFlat [("a", PVal.int 1)] (by decide)
  · refine get_read_only_differences_spec.2.1 2 c4ModelNested _ _ (by decide) ?_
    intro k v ty hm hl
    rcases List.mem_cons.mp hm with heq | hm2
    · cases heq
      rfl
    · rcases List.mem_cons.mp hm2 with heq | hm3
      · cases heq
        simp [c4ModelNested, PFields.lookup, PModel.fields] at hl
      · exact absurd hm3 (List.not_mem_nil _)
  · refine get_read_only_differences_spec.2.2 2 c4ModelNested _ _ ["inner", "b"]
      (PVal.int 1) (PVal.int 2) (by decide) ?_
    refine ⟨PModel.mk "Inner" (.flat "b" false .nil), [("b", PVal.int 1)],
      [("b", PVal.int 2)], rfl, rfl, rfl, ?_, rfl, rfl, rfl, ?_, ?_, ?_⟩
    · intro k' hk'
      simp [dlookup, hk']
    · intro h
      injection h with h
      exact absurd h (by decide)
    · intro h
      cases h
    · intro k' hk'
      simp [dlookup, hk']

/-- Witness for C5 at a concrete drain: step size `1`, end time `3`,
no sampling. -/
theorem iter_run_yield_bounds_witness :
    ∃ out : IterOut Unit Unit,
      iter_run unitSimCtx 3 none none false 5 unitState0 = .ok out
      ∧ (∀ x ∈ out.samples, x.current_time < 3)
      ∧ out.samples.length ≤ 5
      ∧ out.final.current_time ≤ 3 + 1/2000000000 := by
  refine ⟨_, rfl, ?_⟩
  have h := iter_run_yield_bounds unitSimCtx 3 none none false 5 unitState0 _
    (fun s' => by norm_num [unitSimCtx]) (fun s' => rfl) rfl
  simpa using h

/-! ### Endgame outer-loop invariant (C1) -/

theorem stepAdvance_params {σ P : Type} (ctx : SimCtx σ P)
    (hadvp : ∀ s', (ctx.advance_state s').params = s'.params)
    (s1 : MState σ P) : (stepAdvance ctx s1).params = s1.params := by
  simp [stepAdvance, hadvp]

theorem run_ok_eq {σ P : Type} (ctx : SimCtx σ P) (e : ℚ) (fuel : ℕ)
    (s s2 : MState σ P) (h : run ctx e fuel s = .ok s2) :
    s2 = runLoop ctx e fuel s := by
  rw [run] at h
  by_cases hc : e < s.current_time
  · rw [if_pos hc] at h
    cases h
  · rw [if_neg hc] at h
    exact (Except.ok.inj h).symm

theorem runLoop_params_mono {σ P : Type} (ctx : SimCtx σ P) (e : ℚ)
    (hadvp : ∀ s', (ctx.advance_state s').params = s'.params)
    (hadvt : ∀ s', (ctx.advance_state s').current_time = s'.current_time)
    (hd0 : ∀ s', 0 ≤ ctx.delta_time s') :
    ∀ (fuel : ℕ) (s : MState σ P),
      (runLoop ctx e fuel s).params = s.params
      ∧ s.current_time ≤ (runLoop ctx e fuel s).current_time
  | 0, s => ⟨rfl, le_refl _⟩
  | fuel + 1, s => by
    simp only [runLoop]
    by_cases hg : s.current_time + ctx.delta_time s ≤ e
    · rw [if_pos hg]
      have hpar : (stepAdvance ctx
          { s with current_time := s.current_time + ctx.delta_time s }).params
          = s.params := by
        rw [stepAdvance_params ctx hadvp]
      have hmono : s.current_time ≤ (stepAdvance ctx
          { s with current_time := s.current_time + ctx.delta_time s }).current_time := by
        rw [stepAdvance_current_time ctx hadvt]
        simp only
        linarith [hd0 s]
      generalize hnext : stepAdvance ctx
        { s with current_time := s.current_time + ctx.delta_time s } = snext at hpar hmono
      obtain ⟨ih1, ih2⟩ := runLoop_params_mono ctx e hadvp hadvt hd0 fuel snext
      exact ⟨by rw [ih1, hpar], le_trans hmono ih2⟩
    · rw [if_neg hg]
      exact ⟨rfl, le_refl _⟩

theorem iterLoop_params_mono_samples {σ P : Type} (ctx : SimCtx σ P) (re : ℚ)
    (ys : Option (List ℚ))
    (hadvp : ∀ s', (ctx.advance_state s').params = s'.params)
    (hadvt : ∀ s', (ctx.advance_state s').current_time = s'.current_time)
    (hdt : ∀ s', (1:ℚ)/1000000000 ≤ ctx.delta_time s') :
    ∀ (fuel idx : ℕ) (s : MState σ P),
      (iterLoop ctx re ys fuel idx s).final.params = s.params
      ∧ s.current_time ≤ (iterLoop ctx re ys fuel idx s).final.current_time
      ∧ ∀ x ∈ (iterLoop ctx re ys fuel idx s).samples,
          x.params = s.params ∧ s.current_time ≤ x.current_time ∧ x.current_time < re
  | 0, idx, s => by
    refine ⟨rfl, le_refl _, ?_⟩
    intro x hx
    simp [iterLoop] at hx
  | fuel + 1, idx, s => by
    simp only [iterLoop]
    by_cases hg : s.current_time + ctx.delta_time s ≤ re
    · rw [if_pos hg]
      have hslt : s.current_time < re := by linarith [hdt s]
      have hpar : (stepAdvance ctx
          { s with current_time := snapTime (s.current_time + ctx.delta_time s) }).params
          = s.params := by
        rw [stepAdvance_params ctx hadvp]
      have hmono : s.current_time ≤ (stepAdvance ctx
          { s with current_time := snapTime (s.current_time + ctx.delta_time s) }).current_time := by
        rw [stepAdvance_current_time ctx hadvt]
        have h1 := le_snapTime (s.current_time + ctx.delta_time s)
        have h2 := hdt s
        simp only
        linarith
      generalize (match ys with
        | none => false
        | some l =>
          decide (idx < l.length) && decide (0 ≤ s.current_time - l.getD idx 0)) = onS
      generalize hnext : stepAdvance ctx
        { s with current_time := snapTime (s.current_time + ctx.delta_time s) } = snext
        at hpar hmono
      obtain ⟨ih1, ih2, ih3⟩ := iterLoop_params_mono_samples ctx re ys hadvp hadvt hdt
        fuel (if onS then idx + 1 else idx) snext
      refine ⟨by rw [ih1, hpar], le_trans hmono ih2, ?_⟩
      intro x hx
      have hx' : x = s ∨
          x ∈ (iterLoop ctx re ys fuel (if onS then idx + 1 else idx) snext).samples := by
        cases onS
        · exact Or.inr hx
        · rcases List.mem_cons.mp hx with h | h
          · exact Or.inl h
          · exact Or.inr h
      rcases hx' with rfl | hmem
      · exact ⟨rfl, le_refl _, hslt⟩
      · obtain ⟨hxp, hxt, hxre⟩ := ih3 x hmem
        exact ⟨by rw [hxp, hpar], le_trans hmono hxt, hxre⟩
    · rw [if_neg hg]
      refine ⟨rfl, le_refl _, ?_⟩
      intro x hx
      simp at hx

theorem iter_run_ok_shape {σ P : Type} (ctx : SimCtx σ P) (end_time : ℚ)
    (si : Option ℚ) (sy : Option (List ℚ)) (inclusive : Bool) (fuel : ℕ)
    (s : MState σ P) (out : IterOut σ P)
    (hok : iter_run ctx end_time si sy inclusive fuel s = .ok out) :
    ∃ ys, out = iterLoop ctx
      (if inclusive then end_time + ctx.delta_time s else end_time) ys fuel 0 s := by
  rw [iter_run] at hok
  set re := if inclusive then end_time + ctx.delta_time s else end_time with hre
  by_cases h1 : re < s.current_time
  · rw [if_pos h1] at hok
    cases hok
  · rw [if_neg h1] at hok
    by_cases h2 : (optFloatTruthy si && optListTruthy sy) = true
    · rw [if_pos h2] at hok
      cases hok
    · rw [if_neg h2] at hok
      cases si with
      | none =>
        exact ⟨_, (Except.ok.inj hok).symm⟩
      | some iv =>
        simp only [npArange] at hok
        by_cases hz : iv = 0
        · rw [if_pos hz] at hok
          cases hok
        · rw [if_neg hz] at hok
          exact ⟨_, (Except.ok.inj hok).symm⟩

theorem filter_eq_take_of_split {P : Type} (ps : List (ℚ × P)) (idx : ℕ) (t : ℚ)
    (h1 : ∀ pr ∈ ps.take idx, pr.1 ≤ t) (h2 : ∀ pr ∈ ps.drop idx, t < pr.1) :
    ps.filter (fun pr => decide (pr.1 ≤ t)) = ps.take idx := by
  have hsplitEq : ps.take idx ++ ps.drop idx = ps := List.take_append_drop idx ps
  calc ps.filter (fun pr => decide (pr.1 ≤ t))
      = (ps.take idx ++ ps.drop idx).filter (fun pr => decide (pr.1 ≤ t)) := by
        rw [hsplitEq]
    _ = (ps.take idx).filter (fun pr => decide (pr.1 ≤ t))
        ++ (ps.drop idx).filter (fun pr => decide (pr.1 ≤ t)) := by
        rw [List.filter_append]
    _ = ps.take idx ++ [] := by
        rw [List.filter_eq_self.mpr (fun a ha => decide_eq_true (h1 a ha)),
          List.filter_eq_nil_iff.mpr (fun a ha => by
            simp only [decide_eq_true_eq, not_le]
            exact h2 a ha)]
    _ = ps.take idx := List.append_nil _

theorem activeParams_of_split {P : Type} (ps : List (ℚ × P)) (idx : ℕ) (t : ℚ)
    (h1 : ∀ pr ∈ ps.take idx, pr.1 ≤ t) (h2 : ∀ pr ∈ ps.drop idx, t < pr.1) :
    activeParams ps t = ((ps.take idx).getLast?).map Prod.snd := by
  simp only [activeParams]
  rw [filter_eq_take_of_split ps idx t h1 h2]

theorem drop_eq_cons_of_get? {α : Type} :
    ∀ (l : List α) (n : ℕ) (a : α), l.get? n = some a → l.drop n = a :: l.drop (n + 1)
  | [], n, a, h => by simp at h
  | b :: tl, 0, a, h => by
    simp only [List.get?] at h
    cases h
    rfl
  | b :: tl, n + 1, a, h => by
    simp only [List.get?] at h
    have ih := drop_eq_cons_of_get? tl n a h
    simp only [List.drop_succ_cons]
    exact ih

theorem take_succ_of_get? {α : Type} (l : List α) (n : ℕ) (a : α)
    (h : l.get? n = some a) : l.take (n + 1) = l.take n ++ [a] := by
  rw [List.take_succ, ← List.get?_eq_getElem?, h]
  rfl

theorem lt_length_of_get? {α : Type} (l : List α) (n : ℕ) (a : α)
    (h : l.get? n = some a) : n < l.length := by
  by_contra hc
  push_neg at hc
  rw [List.get?_eq_none.mpr hc] at h
  cases h

theorem activeParams_of_split_get {P : Type} (ps : List (ℚ × P)) (idx : ℕ) (t : ℚ)
    (pr : ℚ × P) (hget : ps.get? idx = some pr)
    (h1 : ∀ q ∈ ps.take (idx + 1), q.1 ≤ t)
    (h2 : ∀ q ∈ ps.drop (idx + 1), t < q.1) :
    activeParams ps t = some pr.2 := by
  rw [activeParams_of_split ps (idx + 1) t h1 h2,
    getLast?_take_eq_get? ps (idx + 1) (by omega)
      (by have := lt_length_of_get? ps idx pr hget; omega)]
  simp only [Nat.add_sub_cancel]
  rw [hget]
  rfl

theorem egRunInvB_sound {σ P : Type} [DecidableEq P] (ctx : EGCtx σ P) (end_time : ℚ)
    (innerFuel : ℕ)
    (hadvp : ∀ s', (ctx.advance_state s').params = s'.params)
    (hadvt : ∀ s', (ctx.advance_state s').current_time = s'.current_time)
    (hdt : ∀ s', (1:ℚ)/1000000000 ≤ ctx.delta_time s') :
    ∀ (fuel : ℕ) (g : EG σ P),
      g.param_set.Pairwise (fun a b => a.1 < b.1) →
      (∀ pr ∈ g.param_set, pr.1 ≤ end_time) →
      (∀ pr ∈ g.param_set.take g.next_params_index, pr.1 ≤ g.sim.current_time) →
      (∀ pr ∈ g.param_set.drop g.next_params_index, g.sim.current_time < pr.1) →
      activeParams g.param_set g.sim.current_time = some g.sim.params →
      egRunHitsB ctx end_time innerFuel fuel g = true →
      egRunInvB ctx end_time innerFuel fuel g = true
  | 0, g, _, _, _, _, _, _ => rfl
  | fuel + 1, g, hsort, hcover, hsp1, hsp2, hact, hhits => by
    have hd0 : ∀ s', 0 ≤ ctx.toSimCtx.delta_time s' :=
      fun s' => le_trans (by norm_num) (hdt s')
    simp only [egRunHitsB] at hhits
    simp only [egRunInvB]
    by_cases hlt : g.sim.current_time < end_time
    · rw [if_pos hlt] at hhits ⊢
      rcases hpe : (if g.next_params_index < g.param_set.length then
          g.param_set.get? g.next_params_index else none) with _ | ⟨time, next_params⟩
      · simp only [hpe] at hhits ⊢
        rcases hrun : run ctx.toSimCtx end_time innerFuel
            { g.sim with future_delta_time := none } with msg | s2
        · simp only [hrun]
          rw [Bool.and_eq_true]
          exact ⟨decide_eq_true hact, rfl⟩
        · simp only [hrun] at hhits ⊢
          rw [Bool.and_eq_true]
          refine ⟨decide_eq_true hact, ?_⟩
          have hs2 := run_ok_eq ctx.toSimCtx end_time innerFuel _ s2 hrun
          obtain ⟨hp2, hm2⟩ := runLoop_params_mono ctx.toSimCtx end_time hadvp hadvt hd0
            innerFuel { g.sim with future_delta_time := none }
          rw [← hs2] at hp2 hm2
          have hp2' : s2.params = g.sim.params := hp2
          have hm2' : g.sim.current_time ≤ s2.current_time := hm2
          have hge : g.param_set.length ≤ g.next_params_index := by
            by_cases hc : g.next_params_index < g.param_set.length
            · rw [if_pos hc] at hpe
              rw [List.get?_eq_none] at hpe
              omega
            · omega
          have hdropnil : g.param_set.drop g.next_params_index = [] :=
            List.drop_eq_nil_of_le hge
          apply egRunInvB_sound ctx end_time innerFuel hadvp hadvt hdt fuel
            ⟨s2, g.param_set, g.next_params_index⟩ hsort hcover
            (fun pr hpr => le_trans (hsp1 pr hpr) hm2')
            (fun pr hpr => absurd (hdropnil ▸ hpr) (List.not_mem_nil pr))
            ?_ hhits
          show activeParams g.param_set s2.current_time = some s2.params
          rw [hp2',
            activeParams_of_split g.param_set g.next_params_index s2.current_time
              (fun pr hpr => le_trans (hsp1 pr hpr) hm2')
              (fun pr hpr => absurd (hdropnil ▸ hpr) (List.not_mem_nil pr)),
            ← activeParams_of_split g.param_set g.next_params_index g.sim.current_time
              hsp1 hsp2]
          exact hact
      · simp only [hpe] at hhits ⊢
        have hget : g.param_set.get? g.next_params_index = some (time, next_params) := by
          by_cases hc : g.next_params_index < g.param_set.length
          · rw [if_pos hc] at hpe
            exact hpe
          · rw [if_neg hc] at hpe
            cases hpe
        have hmem : (time, next_params) ∈ g.param_set := List.get?_mem hget
        have htle : time ≤ end_time := hcover _ hmem
        have hstop : min time end_time = time := min_eq_left htle
        have hdropc : g.param_set.drop g.next_params_index
            = (time, next_params) :: g.param_set.drop (g.next_params_index + 1) :=
          drop_eq_cons_of_get? _ _ _ hget
        have httime : g.sim.current_time < time :=
          hsp2 (time, next_params) (by rw [hdropc]; exact List.mem_cons_self _ _)
        have hdropP : (g.param_set.drop g.next_params_index).Pairwise
            (fun a b => a.1 < b.1) := hsort.sublist (List.drop_sublist _ _)
        have htail : ∀ pr ∈ g.param_set.drop (g.next_params_index + 1), time < pr.1 := by
          rw [hdropc] at hdropP
          exact fun pr hpr => (List.pairwise_cons.mp hdropP).1 pr hpr
        have htake1 : ∀ q ∈ g.param_set.take (g.next_params_index + 1), q.1 ≤ time := by
          rw [take_succ_of_get? _ _ _ hget]
          intro q hq
          rcases List.mem_append.mp hq with h | h
          · exact le_trans (hsp1 q h) (le_of_lt httime)
          · rcases List.mem_singleton.mp h with rfl
            exact le_refl _
        rw [hstop] at hhits ⊢
        rcases hrun : run ctx.toSimCtx time innerFuel
            { g.sim with future_delta_time :=
                prepFutureDelta (ctx.fields_of next_params) g.sim.future_delta_time }
            with msg | s2
        · simp only [hrun]
          rw [Bool.and_eq_true]
          exact ⟨decide_eq_true hact, rfl⟩
        · simp only [hrun] at hhits ⊢
          rw [Bool.and_eq_true] at hhits
          obtain ⟨ht2, hhits'⟩ := hhits
          have ht2' : s2.current_time = time := of_decide_eq_true ht2
          rw [Bool.and_eq_true]
          refine ⟨decide_eq_true hact, ?_⟩
          have hs2 := run_ok_eq ctx.toSimCtx time innerFuel _ s2 hrun
          obtain ⟨hp2, _⟩ := runLoop_params_mono ctx.toSimCtx time hadvp hadvt hd0
            innerFuel
            { g.sim with future_delta_time :=
                  prepFutureDelta (ctx.fields_of next_params) g.sim.future_delta_time }
          rw [← hs2] at hp2
          apply egRunInvB_sound ctx end_time innerFuel hadvp hadvt hdt fuel
            ⟨{ s2 with params := next_params }, g.param_set, g.next_params_index + 1⟩
            hsort hcover
            (fun q hq => by
              show q.1 ≤ s2.current_time
              rw [ht2']
              exact htake1 q hq)
            (fun q hq => by
              show s2.current_time < q.1
              rw [ht2']
              exact htail q hq)
            ?_ hhits'
          show activeParams g.param_set s2.current_time = some next_params
          rw [ht2']
          exact activeParams_of_split_get g.param_set g.next_params_index time
            (time, next_params) hget htake1 htail
    · rw [if_neg hlt]

theorem egIterInvB_sound {σ P : Type} [DecidableEq P] (ctx : EGCtx σ P) (end_time : ℚ)
    (si : Option ℚ) (sy : Option (List ℚ)) (inclusive : Bool) (innerFuel : ℕ)
    (hadvp : ∀ s', (ctx.advance_state s').params = s'.params)
    (hadvt : ∀ s', (ctx.advance_state s').current_time = s'.current_time)
    (hdt : ∀ s', (1:ℚ)/1000000000 ≤ ctx.delta_time s') :
    ∀ (fuel : ℕ) (g : EG σ P),
      g.param_set.Pairwise (fun a b => a.1 < b.1) →
      (∀ pr ∈ g.param_set, pr.1 ≤ end_time) →
      (∀ pr ∈ g.param_set.take g.next_params_index, pr.1 ≤ g.sim.current_time) →
      (∀ pr ∈ g.param_set.drop g.next_params_index, g.sim.current_time < pr.1) →
      activeParams g.param_set g.sim.current_time = some g.sim.params →
      egIterHitsB ctx end_time si sy inclusive innerFuel fuel g = true →
      egIterInvB ctx end_time si sy inclusive innerFuel fuel g = true
  | 0, g, _, _, _, _, _, _ => rfl
  | fuel + 1, g, hsort, hcover, hsp1, hsp2, hact, hhits => by
    have hd0 : ∀ s', 0 ≤ ctx.toSimCtx.delta_time s' :=
      fun s' => le_trans (by norm_num) (hdt s')
    have hadj : 0 ≤ (if inclusive then ctx.toSimCtx.delta_time g.sim else 0) := by
      cases inclusive
      · simp
      · simpa using hd0 g.sim
    simp only [egIterHitsB] at hhits
    simp only [egIterInvB]
    by_cases hlt : g.sim.current_time < end_time
    · rw [if_pos hlt] at hhits ⊢
      set adj := (if inclusive then ctx.toSimCtx.delta_time g.sim else 0) with hadj_def
      rcases hpe : (if g.next_params_index < g.param_set.length then
          g.param_set.get? g.next_params_index else none) with _ | ⟨time, next_params⟩
      · simp only [hpe] at hhits ⊢
        rcases hrun : iter_run ctx.toSimCtx (end_time + adj) si sy false innerFuel
            { g.sim with future_delta_time := none } with msg | out
        · simp only [hrun]
          rw [Bool.and_eq_true]
          exact ⟨decide_eq_true hact, rfl⟩
        · simp only [hrun] at hhits ⊢
          rw [Bool.and_eq_true]
          refine ⟨decide_eq_true hact, ?_⟩
          rw [Bool.and_eq_true]
          have hge : g.param_set.length ≤ g.next_params_index := by
            by_cases hc : g.next_params_index < g.param_set.length
            · rw [if_pos hc] at hpe
              rw [List.get?_eq_none] at hpe
              omega
            · omega
          have hdropnil : g.param_set.drop g.next_params_index = [] :=
            List.drop_eq_nil_of_le hge
          obtain ⟨ys, hout⟩ := iter_run_ok_shape ctx.toSimCtx (end_time + adj) si sy
            false innerFuel _ out hrun
          have hout' : out = iterLoop ctx.toSimCtx (end_time + adj) ys innerFuel 0
              { g.sim with future_delta_time := none } := hout
          obtain ⟨hfp, hfm, hsam⟩ := iterLoop_params_mono_samples ctx.toSimCtx
            (end_time + adj) ys hadvp hadvt hdt innerFuel 0
            { g.sim with future_delta_time := none }
          rw [← hout'] at hfp hfm hsam
          have hfp' : out.final.params = g.sim.params := hfp
          have hfm' : g.sim.current_time ≤ out.final.current_time := hfm
          have hsam' : ∀ x ∈ out.samples, x.params = g.sim.params
              ∧ g.sim.current_time ≤ x.current_time
              ∧ x.current_time < end_time + adj := hsam
          refine ⟨?_, ?_⟩
          · rw [List.all_eq_true]
            intro x hx
            obtain ⟨hxp, hxt, _⟩ := hsam' x hx
            refine decide_eq_true ?_
            rw [hxp,
              activeParams_of_split g.param_set g.next_params_index x.current_time
                (fun q hq => le_trans (hsp1 q hq) hxt)
                (fun q hq => absurd (hdropnil ▸ hq) (List.not_mem_nil q)),
              ← activeParams_of_split g.param_set g.next_params_index g.sim.current_time
                hsp1 hsp2]
            exact hact
          · apply egIterInvB_sound ctx end_time si sy inclusive innerFuel hadvp hadvt
              hdt fuel ⟨out.final, g.param_set, g.next_params_index⟩ hsort hcover
              (fun q hq => le_trans (hsp1 q hq) hfm')
              (fun q hq => absurd (hdropnil ▸ hq) (List.not_mem_nil q))
              ?_ hhits
            show activeParams g.param_set out.final.current_time = some out.final.params
            rw [hfp',
              activeParams_of_split g.param_set g.next_params_index out.final.current_time
                (fun q hq => le_trans (hsp1 q hq) hfm')
                (fun q hq => absurd (hdropnil ▸ hq) (List.not_mem_nil q)),
              ← activeParams_of_split g.param_set g.next_params_index g.sim.current_time
                hsp1 hsp2]
            exact hact
      · simp only [hpe] at hhits ⊢
        have hget : g.param_set.get? g.next_params_index = some (time, next_params) := by
          by_cases hc : g.next_params_index < g.param_set.length
          · rw [if_pos hc] at hpe
            exact hpe
          · rw [if_neg hc] at hpe
            cases hpe
        have hmem : (time, next_params) ∈ g.param_set := List.get?_mem hget
        have htle : time ≤ end_time := hcover _ hmem
        have hstop : min time (end_time + adj) = time := min_eq_left (by linarith)
        have hdropc : g.param_set.drop g.next_params_index
            = (time, next_params) :: g.param_set.drop (g.next_params_index + 1) :=
          drop_eq_cons_of_get? _ _ _ hget
        have httime : g.sim.current_time < time :=
          hsp2 (time, next_params) (by rw [hdropc]; exact List.mem_cons_self _ _)
        have hdropP : (g.param_set.drop g.next_params_index).Pairwise
            (fun a b => a.1 < b.1) := hsort.sublist (List.drop_sublist _ _)
        have htail : ∀ pr ∈ g.param_set.drop (g.next_params_index + 1), time < pr.1 := by
          rw [hdropc] at hdropP
          exact fun pr hpr => (List.pairwise_cons.mp hdropP).1 pr hpr
        have htake1 : ∀ q ∈ g.param_set.take (g.next_params_index + 1), q.1 ≤ time := by
          rw [take_succ_of_get? _ _ _ hget]
          intro q hq
          rcases List.mem_append.mp hq with h | h
          · exact le_trans (hsp1 q h) (le_of_lt httime)
          · rcases List.mem_singleton.mp h with rfl
            exact le_refl _
        rw [hstop] at hhits ⊢
        rcases hrun : iter_run ctx.toSimCtx time si sy false innerFuel
            { g.sim with future_delta_time :=
                prepFutureDelta (ctx.fields_of next_params) g.sim.future_delta_time }
            with msg | out
        · simp only [hrun]
          rw [Bool.and_eq_true]
          exact ⟨decide_eq_true hact, rfl⟩
        · simp only [hrun] at hhits ⊢
          rw [Bool.and_eq_true] at hhits
          obtain ⟨ht2, hhits'⟩ := hhits
          have ht2' : out.final.current_time = time := of_decide_eq_true ht2
          rw [Bool.and_eq_true]
          refine ⟨decide_eq_true hact, ?_⟩
          rw [Bool.and_eq_true]
          obtain ⟨ys, hout⟩ := iter_run_ok_shape ctx.toSimCtx time si sy false
            innerFuel _ out hrun
          have hout' : out = iterLoop ctx.toSimCtx time ys innerFuel 0
              { g.sim with future_delta_time :=
                  prepFutureDelta (ctx.fields_of next_params) g.sim.future_delta_time }
            := hout
          obtain ⟨hfp, hfm, hsam⟩ := iterLoop_params_mono_samples ctx.toSimCtx time ys
            hadvp hadvt hdt innerFuel 0
            { g.sim with future_delta_time :=
                  prepFutureDelta (ctx.fields_of next_params) g.sim.future_delta_time }
          rw [← hout'] at hfp hfm hsam
          have hfp' : out.final.params = g.sim.params := hfp
          have hsam' : ∀ x ∈ out.samples, x.params = g.sim.params
              ∧ g.sim.current_time ≤ x.current_time ∧ x.current_time < time := hsam
          refine ⟨?_, ?_⟩
          · rw [List.all_eq_true]
            intro x hx
            obtain ⟨hxp, hxt, hxre⟩ := hsam' x hx
            have hdx : ∀ q ∈ g.param_set.drop g.next_params_index,
                x.current_time < q.1 := by
              intro q hq
              rw [hdropc] at hq
              rcases List.mem_cons.mp hq with rfl | hq2
              · exact hxre
              · exact lt_trans hxre (htail q hq2)
            refine decide_eq_true ?_
            rw [hxp,
              activeParams_of_split g.param_set g.next_params_index x.current_time
                (fun q hq => le_trans (hsp1 q hq) hxt) hdx,
              ← activeParams_of_split g.param_set g.next_params_index g.sim.current_time
                hsp1 hsp2]
            exact hact
          · apply egIterInvB_sound ctx end_time si sy inclusive innerFuel hadvp hadvt
              hdt fuel
              ⟨{ out.final with params := next_params }, g.param_set,
                g.next_params_index + 1⟩
              hsort hcover
              (fun q hq => by
                show q.1 ≤ out.final.current_time
                rw [ht2']
                exact htake1 q hq)
              (fun q hq => by
                show out.final.current_time < q.1
                rw [ht2']
                exact htail q hq)
              ?_ hhits'
            show activeParams g.param_set out.final.current_time = some next_params
            rw [ht2']
            exact activeParams_of_split_get g.param_set g.next_params_index time
              (time, next_params) hget htake1 htail
    · rw [if_neg hlt]

/-- C1 (amended): for `GenericEndgame.run` and `GenericEndgame.iter_run`,
provided the advance function leaves `current_time` and the installed
parameters to the controller, every step size is at least `10⁻⁹`, the
Schedule is strictly increasing with every activation time at most the
requested end time, the entry state satisfies the invariant (entries
before `next_params_index` activated at or before `current_time`, later
entries strictly after, installed parameters equal to the active entry),
and every inner segment with a pending entry lands exactly on its
`next_stop`, then at the top of every executed outer loop iteration —
and at every sample yielded by `iter_run` — the inner simulation's
installed ParameterSet equals the Schedule entry with the greatest
activation_time ≤ the relevant `current_time`; in particular a pending
entry's ParameterSet is installed only once `current_time` has reached
its activation time.  Without the activation-times ≤ end_time proviso
the pending entry is installed early, at `end_time < activation_time`
(see the counterexample). -/
theorem endgame_loop_top_params_invariant {σ P : Type} [DecidableEq P]
    (ctx : EGCtx σ P) (end_time : ℚ) (si : Option ℚ) (sy : Option (List ℚ))
    (inclusive : Bool) (innerFuel fuel : ℕ) (g : EG σ P)
    (hadvp : ∀ s', (ctx.advance_state s').params = s'.params)
    (hadvt : ∀ s', (ctx.advance_state s').current_time = s'.current_time)
    (hdt : ∀ s', (1:ℚ)/1000000000 ≤ ctx.delta_time s')
    (hsort : g.param_set.Pairwise (fun a b => a.1 < b.1))
    (hcover : ∀ pr ∈ g.param_set, pr.1 ≤ end_time)
    (hsp1 : ∀ pr ∈ g.param_set.take g.next_params_index, pr.1 ≤ g.sim.current_time)
    (hsp2 : ∀ pr ∈ g.param_set.drop g.next_params_index, g.sim.current_time < pr.1)
    (hact : activeParams g.param_set g.sim.current_time = some g.sim.params) :
    (egRunHitsB ctx end_time innerFuel fuel g = true →
      egRunInvB ctx end_time innerFuel fuel g = true)
    ∧ (egIterHitsB ctx end_time si sy inclusive innerFuel fuel g = true →
      egIterInvB ctx end_time si sy inclusive innerFuel fuel g = true) :=
  ⟨fun hh => egRunInvB_sound ctx end_time innerFuel hadvp hadvt hdt fuel g
      hsort hcover hsp1 hsp2 hact hh,
    fun hh => egIterInvB_sound ctx end_time si sy inclusive innerFuel hadvp hadvt hdt
      fuel g hsort hcover hsp1 hsp2 hact hh⟩

/-- C1 counterexample: schedule `[(0, p₀), (10, p₁)]`, end time `5`.
`GenericEndgame.run(end_time=5)` stops the inner segment at
`next_stop = min(10, 5) = 5` and then installs the pending entry `p₁`
anyway (`endgame_simulation.py` lines 345–347), although
`current_time = 5` has not reached the activation time `10`: the
installed parameters (`1`) differ from the Schedule entry with the
greatest activation_time ≤ `5` (`activeParams` gives `0`), refuting the
invariant at the top of the next outer iteration and the `in
particular` clause of the claim. -/
theorem endgame_early_install_ce :
    egRunLoop egCtxN 5 10 3 ⟨⟨0, none, none, 0, ()⟩, [(0, 0), (10, 1)], 1⟩
      = .ok ⟨⟨5, some 1, none, 1, ()⟩, [(0, 0), (10, 1)], 2⟩
    ∧ activeParams [((0:ℚ), (0:ℕ)), (10, 1)] 5 = some 0
    ∧ (5:ℚ) < 10
    ∧ (1:ℕ) ≠ 0 := by
  refine ⟨?_, ?_, by norm_num, by decide⟩
  · with_unfolding_all rfl
  · with_unfolding_all rfl

/-- Witness for C1 at the concrete schedule `[(0, 0), (3, 1)]`, step
size `1`, end time `5`, sampling interval `1`: both hits hypotheses
hold, and the checkers confirm the installed parameters equal the
active Schedule entry at every outer-iteration top and at every yielded
sample. -/
theorem endgame_loop_top_params_invariant_witness :
    egRunInvB egCtxN 5 10 3 ⟨⟨0, none, none, 0, ()⟩, [(0, 0), (3, 1)], 1⟩ = true
    ∧ egIterInvB egCtxN 5 (some 1) none false 10 3
        ⟨⟨0, none, none, 0, ()⟩, [(0, 0), (3, 1)], 1⟩ = true :=
  have h := endgame_loop_top_params_invariant egCtxN 5 (some 1) none false 10 3
    ⟨⟨0, none, none, 0, ()⟩, [(0, 0), (3, 1)], 1⟩
    (fun s' => rfl) (fun s' => rfl)
    (fun s' => show (1:ℚ)/1000000000 ≤ 1 by with_unfolding_all decide)
    (by with_unfolding_all decide)
    (by with_unfolding_all decide)
    (by with_unfolding_all decide)
    (by with_unfolding_all decide)
    (by with_unfolding_all decide)
  ⟨h.1 (by with_unfolding_all decide), h.2 (by with_unfolding_all decide)⟩

end EndgameSim
